import Mathlib

/-!
Verification development for the gosp web framework (main.go).

The directive-expansion engine and its embedded-mode (compiled) variant are
shallowly embedded here.  Strings are modelled as `List Char` (the model is
faithful on ASCII text; the Unicode-only space code points accepted by Go's
`unicode.IsSpace` are not modelled).  The three Go regular expressions

  include : <%@include\s+file="([^"]+)"\s*%>
  code    : <%\s*([^=][^%]*)\s*%>
  output  : <%=\s*([^%]+)\s*%>

are embedded as anchored matchers that implement the leftmost-first
(greedy-with-backtracking) semantics of Go's regexp package directly: each
greedy quantifier tries its longest possible extent first and backtracks by
giving characters back from the end, which the matchers mirror by iterating
candidate lengths from the maximum down to the minimum.
`ReplaceAllStringFunc` is embedded as a left-to-right scan that, at each
position, tries the anchored matcher and either substitutes the match and
resumes after it, or copies one character.  The Go callbacks re-extract the
capture group with `FindStringSubmatch(match)`; for these patterns that
yields exactly the group of the original match, so the matchers hand the
group to the callback directly (the dead `len(matches) < 2` branches of the
callbacks are therefore not represented).

Recursive include expansion does not terminate on cyclic inputs, so the
include scanner is indexed by fuel; `none` models non-termination.  The
quote-stripping step of a code-block assignment evaluates `v[1:len(v)-1]`,
which panics in Go when `v` is the one-character string `"`;
`Except.error ()` models that panic.
-/

/-- Convert a string literal to the `List Char` representation used throughout. -/
def toL (s : String) : List Char := s.toList

/-- The single-quote character (kept out of string literals). -/
def sqc : Char := Char.ofNat 39

/-- Go regexp `\s` (Perl class): tab, newline, form feed, carriage return, space. -/
def isPatSpace (c : Char) : Bool :=
  c == ' ' || c == '\t' || c == '\n' || c == '\x0c' || c == '\r'

/-- Model of `unicode.IsSpace` as used by `strings.TrimSpace`, restricted to ASCII:
tab, newline, vertical tab, form feed, carriage return, space. -/
def isGoSpace (c : Char) : Bool :=
  c == ' ' || c == '\t' || c == '\n' || c == '\x0b' || c == '\x0c' || c == '\r'

/-- Model of `strings.TrimSpace`: drop leading and trailing white space. -/
def trimSpace (s : List Char) : List Char :=
  ((s.dropWhile isGoSpace).reverse.dropWhile isGoSpace).reverse

/-- Literal head of the include directive. -/
def incLit : List Char := toL "<%@include"

/-- Literal `file="` part of the include directive. -/
def fileLit : List Char := toL "file=\""

/-- Anchored matcher for `<%@include\s+file="([^"]+)"\s*%>`.
Returns `(captured file name, text after the match)`.  The quantifier loops
run longest-first, exactly like the regexp engine's greedy backtracking;
`\s+` and `[^"]+` reject the empty extent. -/
def matchIncludeAt (s : List Char) : Option (List Char × List Char) :=
  if incLit.isPrefixOf s then
    let t := s.drop 10
    let wmax := (t.takeWhile isPatSpace).length
    ((List.range (wmax + 1)).reverse).findSome? (fun k =>
      if k = 0 then none
      else
        let u := t.drop k
        if fileLit.isPrefixOf u then
          let u2 := u.drop 6
          let rmax := (u2.takeWhile (fun c => c != '"')).length
          ((List.range (rmax + 1)).reverse).findSome? (fun rl =>
            if rl = 0 then none
            else
              let g := u2.take rl
              match u2.drop rl with
              | '"' :: u4 =>
                let w2max := (u4.takeWhile isPatSpace).length
                ((List.range (w2max + 1)).reverse).findSome? (fun w2 =>
                  match u4.drop w2 with
                  | '%' :: '>' :: rest => some (g, rest)
                  | _ => none)
              | _ => none)
        else none)
  else none

/-- Anchored matcher for the code-block pattern `<%\s*([^=][^%]*)\s*%>`.
Returns `(captured body, text after the match)`. -/
def matchCodeAt (s : List Char) : Option (List Char × List Char) :=
  match s with
  | a :: b :: t =>
    if a = '<' ∧ b = '%' then
      let wmax := (t.takeWhile isPatSpace).length
      ((List.range (wmax + 1)).reverse).findSome? (fun k =>
        match t.drop k with
        | [] => none
        | c :: u =>
          if c = '=' then none
          else
            let rmax := (u.takeWhile (fun d => d != '%')).length
            ((List.range (rmax + 1)).reverse).findSome? (fun rl =>
              let v := u.drop rl
              let w2max := (v.takeWhile isPatSpace).length
              ((List.range (w2max + 1)).reverse).findSome? (fun w2 =>
                match v.drop w2 with
                | '%' :: '>' :: rest => some (c :: u.take rl, rest)
                | _ => none)))
    else none
  | _ => none

/-- Anchored matcher for the output pattern `<%=\s*([^%]+)\s*%>`.
Returns `(captured expression, text after the match)`. -/
def matchOutputAt (s : List Char) : Option (List Char × List Char) :=
  match s with
  | a :: b :: c :: t =>
    if a = '<' ∧ b = '%' ∧ c = '=' then
      let wmax := (t.takeWhile isPatSpace).length
      ((List.range (wmax + 1)).reverse).findSome? (fun k =>
        let u := t.drop k
        let rmax := (u.takeWhile (fun d => d != '%')).length
        ((List.range (rmax + 1)).reverse).findSome? (fun rl =>
          if rl = 0 then none
          else
            let v := u.drop rl
            let w2max := (v.takeWhile isPatSpace).length
            ((List.range (w2max + 1)).reverse).findSome? (fun w2 =>
              match v.drop w2 with
              | '%' :: '>' :: rest => some (u.take rl, rest)
              | _ => none)))
    else none
  | _ => none

/-- Filesystem-mode include failure marker:
`fmt.Sprintf("<!-- Include error: %v -->", err)`. -/
def includeErrMarkerFS (e : List Char) : List Char :=
  toL "<!-- Include error: " ++ e ++ toL " -->"

/-- Embedded-mode include failure marker:
`"<!-- Include error: template " + includeFile + " not found -->"`. -/
def includeErrMarkerEmb (f : List Char) : List Char :=
  toL "<!-- Include error: template " ++ f ++ toL " not found -->"

/-- Embedding of `TemplateProcessor.processIncludes` (filesystem mode).  Here `fetch` models
`ioutil.ReadFile(filepath.Join(tp.rootPath, includeFile))`: it either returns
file content or an error message.  On success the included content is itself
recursively include-expanded before substitution; the scan then resumes after
the match, so substituted text is not rescanned (Go `ReplaceAllStringFunc`).
Fuel decreases on every scanned character and on every recursive expansion;
`none` means the fuel ran out, which on cyclic inputs models the unbounded
recursion of the Go code. -/
def processIncludes (fetch : List Char → Except (List Char) (List Char)) :
    Nat → List Char → Option (List Char)
  | 0, _ => none
  | _ + 1, [] => some []
  | n + 1, ch :: cs =>
    match matchIncludeAt (ch :: cs) with
    | none => (processIncludes fetch n cs).map (fun tail => ch :: tail)
    | some (g, rest) =>
      match fetch g with
      | .error e =>
        (processIncludes fetch n rest).map (fun tail => includeErrMarkerFS e ++ tail)
      | .ok inc =>
        match processIncludes fetch n inc with
        | none => none
        | some repl => (processIncludes fetch n rest).map (fun tail => repl ++ tail)

/-- Lookup in the embedded template table (`embeddedTemplates[includeFile]`). -/
def lookupTemplate (emb : List (List Char × List Char)) (k : List Char) :
    Option (List Char) :=
  match emb with
  | [] => none
  | (k2, v) :: t => if k2 = k then some v else lookupTemplate t k

/-- Embedding of `processIncludes` of the generated (embedded-mode) program: content comes
from the embedded table and the failure marker names the missing template. -/
def processIncludesEmb (emb : List (List Char × List Char)) :
    Nat → List Char → Option (List Char)
  | 0, _ => none
  | _ + 1, [] => some []
  | n + 1, ch :: cs =>
    match matchIncludeAt (ch :: cs) with
    | none => (processIncludesEmb emb n cs).map (fun tail => ch :: tail)
    | some (g, rest) =>
      match lookupTemplate emb g with
      | none =>
        (processIncludesEmb emb n rest).map (fun tail => includeErrMarkerEmb g ++ tail)
      | some inc =>
        match processIncludesEmb emb n inc with
        | none => none
        | some repl => (processIncludesEmb emb n rest).map (fun tail => repl ++ tail)

/-- The per-render variable scope `tp.data`.  A Go map from string to
`interface{}`; every value stored through the engine is a string, so values
are `List Char`.  Assignment is modelled by consing and lookup by first
match, which coincides with Go map overwrite semantics. -/
abbrev Scope : Type := List (List Char × List Char)

/-- Map lookup `tp.data[expression]`. -/
def scopeLookup (sc : Scope) (k : List Char) : Option (List Char) :=
  match sc with
  | [] => none
  | (k2, v) :: t => if k2 = k then some v else scopeLookup t k

/-- Split a list at the first occurrence of `sep`
(`strings.SplitN(s, sep, 2)` — `none` iff `sep` does not occur, which is the
`strings.Contains` guard of the Go code). -/
def splitFirst (sep : Char) : List Char → Option (List Char × List Char)
  | [] => none
  | c :: t =>
    if c = sep then some ([], t)
    else (splitFirst sep t).map (fun p => (c :: p.1, p.2))

/-- The body of the code-block callback of `processCodeExpressions`: trim the
captured body; if it contains `=`, split once on the first `=`, trim both
sides, strip one layer of surrounding double quotes
(`v[1:len(v)-1]`, which panics — `Except.error ()` — when the value is the
single character `"`), and write the pair into the scope. -/
def codeAssign (sc : Scope) (g : List Char) : Except Unit Scope :=
  let code := trimSpace g
  match splitFirst '=' code with
  | none => .ok sc
  | some (l, r) =>
    let varName := trimSpace l
    let varValue := trimSpace r
    if varValue.head? = some '"' ∧ varValue.getLast? = some '"' then
      if varValue.length = 1 then .error ()
      else .ok ((varName, (varValue.drop 1).dropLast) :: sc)
    else .ok ((varName, varValue) :: sc)

/-- Embedding of `TemplateProcessor.processCodeExpressions`: scan, run `codeAssign` on each
match, and render each match as the empty string. -/
def processCodeExpressions : Nat → Scope → List Char → Except Unit (Scope × List Char)
  | 0, sc, s => .ok (sc, s)
  | _ + 1, sc, [] => .ok (sc, [])
  | n + 1, sc, ch :: cs =>
    match matchCodeAt (ch :: cs) with
    | none =>
      (processCodeExpressions n sc cs).map (fun p => (p.1, ch :: p.2))
    | some (g, rest) =>
      match codeAssign sc g with
      | .error e => .error e
      | .ok sc2 => processCodeExpressions n sc2 rest

/-- Wrapper running `processCodeExpressions` with the fuel the scan can actually use
(one unit per scanned character, plus one for the empty tail). -/
def processCodeTop (sc : Scope) (s : List Char) : Except Unit (Scope × List Char) :=
  processCodeExpressions (s.length + 1) sc s

/-- The request context the engine reads through echo.  The `Fmt` fields are
the `fmt.Sprintf("%v", ...)` renderings of the objects preseeded into
`tp.data` by the serving handler. -/
structure ReqCtx where
  method : List Char
  url : List Char
  host : List Char
  remoteaddr : List Char
  query : List Char → List Char
  form : List Char → List Char
  requestFmt : List Char
  paramsFmt : List Char
  queryFmt : List Char
  formFmt : List Char

/-- The scope preseeded by the filesystem-mode handler:
`request`, `params`, `query`, `form`. -/
def initScopeFS (ctx : ReqCtx) : Scope :=
  [(toL "request", ctx.requestFmt), (toL "params", ctx.paramsFmt),
   (toL "query", ctx.queryFmt), (toL "form", ctx.formFmt)]

/-- The scope preseeded by the generated embedded-mode handler:
`request`, `query`, `form` (no `params`). -/
def initScopeEmb (ctx : ReqCtx) : Scope :=
  [(toL "request", ctx.requestFmt), (toL "query", ctx.queryFmt),
   (toL "form", ctx.formFmt)]

/-- Model of `strings.Split(s, sep)` for a one-character separator. -/
def splitOnChar (sep : Char) : List Char → List (List Char)
  | [] => [[]]
  | c :: t =>
    if c = sep then [] :: splitOnChar sep t
    else
      match splitOnChar sep t with
      | [] => [[c]]
      | p :: ps => (c :: p) :: ps

/-- Numeric value of a decimal digit character. -/
def digVal (c : Char) : Option Nat :=
  if '0' ≤ c ∧ c ≤ '9' then some (c.toNat - 48) else none

/-- Accumulate the value of a digit string; `none` on any non-digit. -/
def digitsValAux (acc : Nat) : List Char → Option Nat
  | [] => some acc
  | c :: t =>
    match digVal c with
    | none => none
    | some d => digitsValAux (10 * acc + d) t

/-- Value of a nonempty all-digit string, within the 64-bit int range
(Go returns an error on overflow), negated when `neg` is set. -/
def atoiDigits (neg : Bool) (ds : List Char) : Option Int :=
  match ds with
  | [] => none
  | _ :: _ =>
    match digitsValAux 0 ds with
    | none => none
    | some n =>
      if neg then (if n ≤ 2 ^ 63 then some (-(n : Int)) else none)
      else (if n ≤ 2 ^ 63 - 1 then some (n : Int) else none)

/-- Model of `strconv.Atoi`: optional sign, then one or more decimal digits. -/
def atoi (s : List Char) : Option Int :=
  match s with
  | [] => none
  | c :: t =>
    if c = '+' then atoiDigits false t
    else if c = '-' then atoiDigits true t
    else atoiDigits false (c :: t)

/-- Character for digit `n < 10`. -/
def digitChar (n : Nat) : Char := Char.ofNat (48 + n)

/-- Fuelled decimal rendering of a natural number (most significant first). -/
def natDecAux : Nat → Nat → List Char → List Char
  | 0, _, acc => acc
  | f + 1, n, acc =>
    if n < 10 then digitChar n :: acc
    else natDecAux f (n / 10) (digitChar (n % 10) :: acc)

/-- Decimal rendering of a natural number. -/
def natDec (n : Nat) : List Char := natDecAux (n + 1) n []

/-- Model of `strconv.Itoa`. -/
def itoa (i : Int) : List Char :=
  if i < 0 then '-' :: natDec i.natAbs else natDec i.toNat

/-- Embedding of `TemplateProcessor.evaluateSimpleExpression`: split on every `+`; with
exactly two parts, trim them and either add both as integers or concatenate
them with the separator dropped; otherwise echo (after a whole-string
integer-normalisation attempt). -/
def evaluateSimpleExpression (e : List Char) : List Char :=
  match splitOnChar '+' e with
  | [l, r] =>
    let left := trimSpace l
    let right := trimSpace r
    match atoi left with
    | some lv =>
      match atoi right with
      | some rv => itoa (lv + rv)
      | none => left ++ right
    | none => left ++ right
  | _ =>
    match atoi (trimSpace e) with
    | some v => itoa v
    | none => e

/-- Embedding of `TemplateProcessor.handleRequestExpression` (filesystem mode). -/
def handleRequestExpression (ctx : ReqCtx) (e : List Char) : List Char :=
  if e = toL "request.method" then ctx.method
  else if e = toL "request.url" then ctx.url
  else if e = toL "request.host" then ctx.host
  else if e = toL "request.remoteaddr" then ctx.remoteaddr
  else e

/-- Embedding of `handleRequestExpression` of the generated embedded-mode program:
no `request.remoteaddr` case. -/
def handleRequestExpressionEmb (ctx : ReqCtx) (e : List Char) : List Char :=
  if e = toL "request.method" then ctx.method
  else if e = toL "request.url" then ctx.url
  else if e = toL "request.host" then ctx.host
  else e

/-- The output-tag callback of `processOutputTags` (filesystem mode): the
trimmed expression is resolved, first match wins, through the scope, the
`request.` table, the `query.`/`form.` parameters, the `+` rule, and finally
echoed. -/
def evalOutput (sc : Scope) (ctx : ReqCtx) (e : List Char) : List Char :=
  match scopeLookup sc e with
  | some v => v
  | none =>
    if (toL "request.").isPrefixOf e then handleRequestExpression ctx e
    else if (toL "query.").isPrefixOf e then ctx.query (e.drop 6)
    else if (toL "form.").isPrefixOf e then ctx.form (e.drop 5)
    else if e.contains '+' then evaluateSimpleExpression e
    else e

/-- The output-tag callback of the generated embedded-mode program: as the
filesystem one but with no `+` rule and the reduced `request.` table. -/
def evalOutputEmb (sc : Scope) (ctx : ReqCtx) (e : List Char) : List Char :=
  match scopeLookup sc e with
  | some v => v
  | none =>
    if (toL "request.").isPrefixOf e then handleRequestExpressionEmb ctx e
    else if (toL "query.").isPrefixOf e then ctx.query (e.drop 6)
    else if (toL "form.").isPrefixOf e then ctx.form (e.drop 5)
    else e

/-- Embedding of `TemplateProcessor.processOutputTags`, parameterised by the callback
(the Go code passes a closure over the processor and the request context). -/
def processOutputTagsWith (ev : List Char → List Char) :
    Nat → List Char → List Char
  | 0, s => s
  | _ + 1, [] => []
  | n + 1, ch :: cs =>
    match matchOutputAt (ch :: cs) with
    | none => ch :: processOutputTagsWith ev n cs
    | some (g, rest) => ev (trimSpace g) ++ processOutputTagsWith ev n rest

/-- Embedding of `processOutputTags` (filesystem mode). -/
def processOutputTags (sc : Scope) (ctx : ReqCtx) (s : List Char) : List Char :=
  processOutputTagsWith (evalOutput sc ctx) (s.length + 1) s

/-- Embedding of `processOutputTags` of the generated embedded-mode program. -/
def processOutputTagsEmb (sc : Scope) (ctx : ReqCtx) (s : List Char) : List Char :=
  processOutputTagsWith (evalOutputEmb sc ctx) (s.length + 1) s

/-- The trimmed expressions of the output tags a scan of `s` encounters
(used to state agreement conditions between the two evaluators). -/
def collectOutputExprs : Nat → List Char → List (List Char)
  | 0, _ => []
  | _ + 1, [] => []
  | n + 1, ch :: cs =>
    match matchOutputAt (ch :: cs) with
    | none => collectOutputExprs n cs
    | some (g, rest) => trimSpace g :: collectOutputExprs n rest

/-- Wrapper running `collectOutputExprs` with the fuel `processOutputTags` uses. -/
def outputExprsTop (s : List Char) : List (List Char) :=
  collectOutputExprs (s.length + 1) s

/-- Embedding of `TemplateProcessor.processTemplate` plus the preseeding done by the
filesystem-mode serving handler: includes, then code blocks against a fresh
scope, then output tags.  The `Option (List Char)` component is the Go
`error` return value, which the source sets to `nil` unconditionally;
`Except.error ()` is a quote-stripping panic escaping the function. -/
def processTemplateFS (fuel : Nat) (fetch : List Char → Except (List Char) (List Char))
    (ctx : ReqCtx) (content : List Char) :
    Option (Except Unit (List Char × Option (List Char))) :=
  match processIncludes fetch fuel content with
  | none => none
  | some c1 =>
    match processCodeTop (initScopeFS ctx) c1 with
    | .error e => some (.error e)
    | .ok (sc, c2) => some (.ok (processOutputTags sc ctx c2, none))

/-- Embedding of `processTemplate` of the generated embedded-mode program. -/
def processTemplateEmb (fuel : Nat) (emb : List (List Char × List Char))
    (ctx : ReqCtx) (content : List Char) :
    Option (Except Unit (List Char × Option (List Char))) :=
  match processIncludesEmb emb fuel content with
  | none => none
  | some c1 =>
    match processCodeTop (initScopeEmb ctx) c1 with
    | .error e => some (.error e)
    | .ok (sc, c2) => some (.ok (processOutputTagsEmb sc ctx c2, none))

instance {e2 a2 : Type} [DecidableEq e2] [DecidableEq a2] : DecidableEq (Except e2 a2) := fun a b =>
  match a, b with
  | .error e, .error f =>
    if h : e = f then isTrue (by rw [h]) else isFalse (by intro hh; cases hh; exact h rfl)
  | .ok x, .ok y =>
    if h : x = y then isTrue (by rw [h]) else isFalse (by intro hh; cases hh; exact h rfl)
  | .error _, .ok _ => isFalse (by intro hh; cases hh)
  | .ok _, .error _ => isFalse (by intro hh; cases hh)

/-- A canonical well-formed output tag `<%= n %>`. -/
def outTag (n : List Char) : List Char :=
  '<' :: '%' :: '=' :: ' ' :: (n ++ (' ' :: '%' :: '>' :: []))

/-- A canonical well-formed assignment code block, `<% n = "v" %>`. -/
def asgTag (n v : List Char) : List Char :=
  '<' :: '%' :: ' ' :: (n ++ (' ' :: '=' :: ' ' :: '"' :: (v ++ ('"' :: ' ' :: '%' :: '>' :: []))))

/-- Characters allowed in a canonical variable name: no tag delimiters, no
`=`, no quote, no white space. -/
def nameChar (c : Char) : Bool :=
  !(c == '<' || c == '%' || c == '=' || c == '"' || c == '>') && !isPatSpace c && !isGoSpace c

/-- Characters allowed in a canonical quoted value: anything that keeps the
surrounding tag well formed (no `%`, no quote, no `<`). -/
def valueChar (c : Char) : Bool :=
  !(c == '%' || c == '"' || c == '<')

/-- A set `P` of document contents is an include cycle for `fetch` when every
member, at its first include match, either fetches another member (a cycle
edge) or scans on into a remainder that again has the property.  A file that
directly or transitively includes itself yields such a set. -/
def IncludeCycle (fetch : List Char → Except (List Char) (List Char))
    (P : List Char → Prop) : Prop :=
  ∀ s, P s → ∃ p g rest,
    (∀ i < p, matchIncludeAt (s.drop i) = none) ∧
    matchIncludeAt (s.drop p) = some (g, rest) ∧
    ((∃ s2, fetch g = .ok s2 ∧ P s2) ∨ P rest)

/-- A concrete request context used for witnesses. -/
def ctxA : ReqCtx :=
  ⟨toL "GET", toL "/u?q=1", toL "example.org", toL "10.0.0.7",
   fun k => if k = toL "q" then toL "one" else [],
   fun k => if k = toL "f" then toL "two" else [],
   toL "reqfmt", toL "parfmt", toL "qryfmt", toL "frmfmt"⟩

/-- A registry in which every read fails (an empty root directory). -/
def fetchNone : List Char → Except (List Char) (List Char) :=
  fun _ => .error (toL "no such file")

/-- A document that is exactly one include of `self.html`. -/
def selfInc : List Char := toL "<%@include file=\"self.html\" %>"

/-- A registry in which `self.html` is the self-including document. -/
def fetchSelf : List Char → Except (List Char) (List Char) :=
  fun g => if g = toL "self.html" then .ok selfInc else .error (toL "no such file")

/-- A malformed include tag whose `file` attribute is single-quoted. -/
def badInclude : List Char :=
  toL "<%@include file=" ++ [sqc] ++ toL "x.html" ++ [sqc] ++ toL " %>"

/-- The greet document of the specification scenario. -/
def docGreet : List Char := toL "<% who = \"World\" %><h1>Hello <%= who %></h1>"

/-- The greet document after its code pass. -/
def bodyGreet : List Char := toL "<h1>Hello <%= who %></h1>"

/-! ### Helper lemmas about lists and the matchers -/

theorem incLit_chars :
    incLit = '<' :: '%' :: '@' :: 'i' :: 'n' :: 'c' :: 'l' :: 'u' :: 'd' :: 'e' :: [] := rfl

theorem fileLit_chars : fileLit = 'f' :: 'i' :: 'l' :: 'e' :: '=' :: '"' :: [] := rfl

theorem findSome?_range_rev_succ {β : Type} (f : Nat → Option β) (m : Nat) (b : β)
    (h : f m = some b) : ((List.range (m + 1)).reverse).findSome? f = some b := by
  rw [List.range_succ, List.reverse_append]
  simp [List.findSome?_cons, h]

theorem takeWhile_append_all {p : Char → Bool} {a b : List Char}
    (h : ∀ c ∈ a, p c = true) : (a ++ b).takeWhile p = a ++ b.takeWhile p := by
  induction a with
  | nil => simp
  | cons c t ih =>
    simp only [List.cons_append, List.takeWhile_cons, h c (by simp)]
    rw [ih (fun d hd => h d (by simp [hd]))]
    simp

theorem takeWhile_cons_neg {p : Char → Bool} {c : Char} {t : List Char}
    (h : p c = false) : (c :: t).takeWhile p = [] := by
  simp [List.takeWhile_cons, h]

theorem dropWhile_cons_neg {p : Char → Bool} {c : Char} {t : List Char}
    (h : p c = false) : (c :: t).dropWhile p = c :: t := by
  simp [List.dropWhile_cons, h]

theorem matchIncludeAt_nil : matchIncludeAt [] = none := rfl

theorem matchIncludeAt_ne {c : Char} (s : List Char) (h : c ≠ '<') :
    matchIncludeAt (c :: s) = none := by
  have hpre : incLit.isPrefixOf (c :: s) = false := by
    rw [incLit_chars]
    simp [List.isPrefixOf]
    intro h2
    exact absurd h2.symm h
  simp [matchIncludeAt, hpre]

theorem matchIncludeAt_out (x : List Char) :
    matchIncludeAt ('<' :: '%' :: '=' :: x) = none := rfl

theorem matchIncludeAt_asg (x : List Char) :
    matchIncludeAt ('<' :: '%' :: ' ' :: x) = none := rfl

theorem matchCodeAt_nil : matchCodeAt [] = none := rfl

theorem matchCodeAt_one (c : Char) : matchCodeAt [c] = none := rfl

theorem matchCodeAt_ne {c : Char} (s : List Char) (h : c ≠ '<') :
    matchCodeAt (c :: s) = none := by
  cases s with
  | nil => rfl
  | cons b t =>
    simp only [matchCodeAt]
    rw [if_neg]
    intro hand
    exact h hand.1

theorem matchOutputAt_nil : matchOutputAt [] = none := rfl

theorem matchOutputAt_ne {c : Char} (s : List Char) (h : c ≠ '<') :
    matchOutputAt (c :: s) = none := by
  cases s with
  | nil => rfl
  | cons b t =>
    cases t with
    | nil => rfl
    | cons d u =>
      simp only [matchOutputAt]
      rw [if_neg]
      intro hand
      exact h hand.1

/-! ### Scan lemmas: skipping match-free text, identity on match-free text -/

theorem processIncludes_skip (fetch : List Char → Except (List Char) (List Char))
    (pre s : List Char) (h : ∀ c ∈ pre, c ≠ '<') :
    ∀ m, processIncludes fetch (pre.length + m) (pre ++ s)
      = (processIncludes fetch m s).map (fun t => pre ++ t) := by
  induction pre with
  | nil =>
    intro m
    simp only [List.nil_append, List.length_nil, Nat.zero_add]
    cases processIncludes fetch m s <;> simp
  | cons c pr ih =>
    intro m
    have hlen : (c :: pr).length + m = (pr.length + m) + 1 := by
      simp [List.length_cons]; omega
    rw [hlen]
    have hstep :
        processIncludes fetch ((pr.length + m) + 1) ((c :: pr) ++ s)
          = (processIncludes fetch (pr.length + m) (pr ++ s)).map (fun t => c :: t) := by
      simp only [List.cons_append, processIncludes, matchIncludeAt_ne _ (h c (by simp))]
      rfl
    rw [hstep]
    try simp only [List.append_eq]
    rw [ih (fun d hd => h d (by simp [hd])) m]
    cases processIncludes fetch m s <;> simp

theorem processIncludes_id (fetch : List Char → Except (List Char) (List Char))
    (s : List Char) (h : ∀ i < s.length, matchIncludeAt (s.drop i) = none) :
    ∀ m, s.length < m → processIncludes fetch m s = some s := by
  induction s with
  | nil =>
    intro m hm
    cases m with
    | zero => omega
    | succ k => rfl
  | cons c cs ih =>
    intro m hm
    cases m with
    | zero => omega
    | succ k =>
      have h0 : matchIncludeAt (c :: cs) = none := h 0 (by simp)
      simp only [processIncludes, h0]
      rw [ih (fun i hi => h (i + 1) (by simp only [List.length_cons]; omega)) k
        (by simp only [List.length_cons] at hm; omega)]
      rfl

theorem processIncludesEmb_skip (emb : List (List Char × List Char))
    (pre s : List Char) (h : ∀ c ∈ pre, c ≠ '<') :
    ∀ m, processIncludesEmb emb (pre.length + m) (pre ++ s)
      = (processIncludesEmb emb m s).map (fun t => pre ++ t) := by
  induction pre with
  | nil =>
    intro m
    simp only [List.nil_append, List.length_nil, Nat.zero_add]
    cases processIncludesEmb emb m s <;> simp
  | cons c pr ih =>
    intro m
    have hlen : (c :: pr).length + m = (pr.length + m) + 1 := by
      simp [List.length_cons]; omega
    rw [hlen]
    have hstep :
        processIncludesEmb emb ((pr.length + m) + 1) ((c :: pr) ++ s)
          = (processIncludesEmb emb (pr.length + m) (pr ++ s)).map (fun t => c :: t) := by
      simp only [List.cons_append, processIncludesEmb, matchIncludeAt_ne _ (h c (by simp))]
      rfl
    rw [hstep]
    try simp only [List.append_eq]
    rw [ih (fun d hd => h d (by simp [hd])) m]
    cases processIncludesEmb emb m s <;> simp

theorem processIncludesEmb_id (emb : List (List Char × List Char))
    (s : List Char) (h : ∀ i < s.length, matchIncludeAt (s.drop i) = none) :
    ∀ m, s.length < m → processIncludesEmb emb m s = some s := by
  induction s with
  | nil =>
    intro m hm
    cases m with
    | zero => omega
    | succ k => rfl
  | cons c cs ih =>
    intro m hm
    cases m with
    | zero => omega
    | succ k =>
      have h0 : matchIncludeAt (c :: cs) = none := h 0 (by simp)
      simp only [processIncludesEmb, h0]
      rw [ih (fun i hi => h (i + 1) (by simp only [List.length_cons]; omega)) k
        (by simp only [List.length_cons] at hm; omega)]
      rfl

theorem processCodeExpressions_skip (pre s : List Char) (h : ∀ c ∈ pre, c ≠ '<') :
    ∀ m sc, processCodeExpressions (pre.length + m) sc (pre ++ s)
      = (processCodeExpressions m sc s).map (fun p => (p.1, pre ++ p.2)) := by
  induction pre with
  | nil =>
    intro m sc
    simp only [List.nil_append, List.length_nil, Nat.zero_add]
    cases processCodeExpressions m sc s <;> simp [Except.map]
  | cons c pr ih =>
    intro m sc
    have hlen : (c :: pr).length + m = (pr.length + m) + 1 := by
      simp [List.length_cons]; omega
    rw [hlen]
    have hstep :
        processCodeExpressions ((pr.length + m) + 1) sc ((c :: pr) ++ s)
          = (processCodeExpressions (pr.length + m) sc (pr ++ s)).map
              (fun p => (p.1, c :: p.2)) := by
      simp only [List.cons_append, processCodeExpressions, matchCodeAt_ne _ (h c (by simp))]
      rfl
    rw [hstep]
    try simp only [List.append_eq]
    rw [ih (fun d hd => h d (by simp [hd])) m sc]
    cases processCodeExpressions m sc s <;> simp [Except.map]

theorem processCodeExpressions_id (s : List Char)
    (h : ∀ i < s.length, matchCodeAt (s.drop i) = none) :
    ∀ m sc, s.length < m → processCodeExpressions m sc s = .ok (sc, s) := by
  induction s with
  | nil =>
    intro m sc hm
    cases m with
    | zero => omega
    | succ k => rfl
  | cons c cs ih =>
    intro m sc hm
    cases m with
    | zero => omega
    | succ k =>
      have h0 : matchCodeAt (c :: cs) = none := h 0 (by simp)
      simp only [processCodeExpressions, h0]
      rw [ih (fun i hi => h (i + 1) (by simp only [List.length_cons]; omega)) k sc
        (by simp only [List.length_cons] at hm; omega)]
      rfl

theorem processOutputTagsWith_skip (ev : List Char → List Char)
    (pre s : List Char) (h : ∀ c ∈ pre, c ≠ '<') :
    ∀ m, processOutputTagsWith ev (pre.length + m) (pre ++ s)
      = pre ++ processOutputTagsWith ev m s := by
  induction pre with
  | nil => intro m; simp
  | cons c pr ih =>
    intro m
    have hlen : (c :: pr).length + m = (pr.length + m) + 1 := by
      simp [List.length_cons]; omega
    rw [hlen]
    have hstep :
        processOutputTagsWith ev ((pr.length + m) + 1) ((c :: pr) ++ s)
          = c :: processOutputTagsWith ev (pr.length + m) (pr ++ s) := by
      simp only [List.cons_append, processOutputTagsWith, matchOutputAt_ne _ (h c (by simp))]
      rfl
    rw [hstep]
    try simp only [List.append_eq]
    rw [ih (fun d hd => h d (by simp [hd])) m]
    rfl

theorem processOutputTagsWith_id (ev : List Char → List Char) (s : List Char)
    (h : ∀ i < s.length, matchOutputAt (s.drop i) = none) :
    ∀ m, s.length < m → processOutputTagsWith ev m s = s := by
  induction s with
  | nil =>
    intro m hm
    cases m with
    | zero => omega
    | succ k => rfl
  | cons c cs ih =>
    intro m hm
    cases m with
    | zero => omega
    | succ k =>
      have h0 : matchOutputAt (c :: cs) = none := h 0 (by simp)
      simp only [processOutputTagsWith, h0]
      rw [ih (fun i hi => h (i + 1) (by simp only [List.length_cons]; omega)) k
        (by simp only [List.length_cons] at hm; omega)]

theorem collectOutputExprs_skip (pre s : List Char) (h : ∀ c ∈ pre, c ≠ '<') :
    ∀ m, collectOutputExprs (pre.length + m) (pre ++ s) = collectOutputExprs m s := by
  induction pre with
  | nil => intro m; simp
  | cons c pr ih =>
    intro m
    have hlen : (c :: pr).length + m = (pr.length + m) + 1 := by
      simp [List.length_cons]; omega
    rw [hlen]
    have hstep :
        collectOutputExprs ((pr.length + m) + 1) ((c :: pr) ++ s)
          = collectOutputExprs (pr.length + m) (pr ++ s) := by
      simp only [List.cons_append, collectOutputExprs, matchOutputAt_ne _ (h c (by simp))]
      rfl
    rw [hstep]
    try simp only [List.append_eq]
    rw [ih (fun d hd => h d (by simp [hd])) m]

/-! ### Lemmas about splitting, digits and trimming -/

theorem splitOnChar_of_not_mem {sep : Char} {s : List Char} (h : sep ∉ s) :
    splitOnChar sep s = [s] := by
  induction s with
  | nil => rfl
  | cons c t ih =>
    have hc : ¬ c = sep := fun hh => h (by simp [hh])
    simp only [splitOnChar, if_neg hc, ih (fun hm => h (by simp [hm]))]

theorem splitOnChar_sep_mid {sep : Char} {l r : List Char} (h : sep ∉ l) :
    splitOnChar sep (l ++ sep :: r) = l :: splitOnChar sep r := by
  induction l with
  | nil => simp [splitOnChar]
  | cons c t ih =>
    have hc : ¬ c = sep := fun hh => h (by simp [hh])
    have ht := ih (fun hm => h (by simp [hm]))
    simp only [List.cons_append, splitOnChar, if_neg hc, List.append_eq, ht]

theorem length_splitOnChar (sep : Char) (s : List Char) :
    (splitOnChar sep s).length = s.count sep + 1 := by
  induction s with
  | nil => simp [splitOnChar]
  | cons c t ih =>
    by_cases hc : c = sep
    · subst hc
      simp [splitOnChar, List.count_cons, ih]
    · have hne : (splitOnChar sep t).length = t.count sep + 1 := ih
      rcases hsp : splitOnChar sep t with _ | ⟨p, ps⟩
      · rw [hsp] at hne; simp at hne
      · simp only [splitOnChar, if_neg hc, hsp]
        rw [hsp] at hne
        simp only [List.length_cons] at hne ⊢
        rw [List.count_cons]
        simp [hne, hc]

theorem splitFirst_of_not_mem {sep : Char} {s : List Char} (h : sep ∉ s) :
    splitFirst sep s = none := by
  induction s with
  | nil => rfl
  | cons c t ih =>
    have hc : ¬ c = sep := fun hh => h (by simp [hh])
    simp only [splitFirst, if_neg hc, ih (fun hm => h (by simp [hm])), Option.map_none']

theorem splitFirst_append {sep : Char} {l r : List Char} (h : sep ∉ l) :
    splitFirst sep (l ++ sep :: r) = some (l, r) := by
  induction l with
  | nil => simp [splitFirst]
  | cons c t ih =>
    have hc : ¬ c = sep := fun hh => h (by simp [hh])
    have ht := ih (fun hm => h (by simp [hm]))
    simp only [List.cons_append, splitFirst, if_neg hc, List.append_eq, ht, Option.map_some']

theorem digitsValAux_mem_digit {acc n : Nat} {ds : List Char}
    (h : digitsValAux acc ds = some n) : ∀ c ∈ ds, ∃ d, digVal c = some d := by
  induction ds generalizing acc with
  | nil => intro c hc; cases hc
  | cons c t ih =>
    intro e he
    rcases hd : digVal c with _ | d
    · rw [digitsValAux, hd] at h; cases h
    · rw [digitsValAux, hd] at h
      rcases List.mem_cons.mp he with rfl | hm
      · exact ⟨d, hd⟩
      · exact ih h e hm

theorem atoiDigits_mem_digit {neg : Bool} {ds : List Char} {v : Int}
    (h : atoiDigits neg ds = some v) : ∀ c ∈ ds, ∃ d, digVal c = some d := by
  cases ds with
  | nil => cases h
  | cons c t =>
    rcases hda : digitsValAux 0 (c :: t) with _ | n
    · rw [atoiDigits, hda] at h; cases h
    · exact digitsValAux_mem_digit hda

theorem digVal_plus : digVal '+' = none := rfl

theorem atoiDigits_not_plus {neg : Bool} {ds : List Char} {v : Int}
    (h : atoiDigits neg ds = some v) : '+' ∉ ds := by
  intro hm
  rcases atoiDigits_mem_digit h '+' hm with ⟨d, hd⟩
  rw [digVal_plus] at hd
  cases hd

theorem atoi_count_plus {s : List Char} {v : Int} (h : atoi s = some v) :
    s.count '+' ≤ 1 := by
  cases s with
  | nil => cases h
  | cons c t =>
    by_cases hc : c = '+'
    · subst hc
      rw [atoi, if_pos rfl] at h
      have ht : t.count '+' = 0 := List.count_eq_zero.mpr (atoiDigits_not_plus h)
      simp [List.count_cons, ht]
    · have hnp : (c :: t).count '+' = t.count '+' := by
        simp [List.count_cons, hc]
      by_cases hm : c = '-'
      · subst hm
        rw [atoi] at h
        simp only [if_neg hc, if_pos rfl] at h
        have ht : t.count '+' = 0 := List.count_eq_zero.mpr (atoiDigits_not_plus h)
        omega
      · rw [atoi, if_neg hc, if_neg hm] at h
        have ht : '+' ∉ c :: t := atoiDigits_not_plus h
        have : (c :: t).count '+' = 0 := List.count_eq_zero.mpr ht
        omega

theorem count_dropWhile {p : Char → Bool} {a : Char} (l : List Char)
    (h : p a = false) : (l.dropWhile p).count a = l.count a := by
  induction l with
  | nil => rfl
  | cons c t ih =>
    by_cases hc : p c = true
    · have hca : ¬ c = a := fun hh => by rw [hh, h] at hc; cases hc
      simp [List.dropWhile_cons, hc, ih, List.count_cons, hca]
    · simp [List.dropWhile_cons, hc]

theorem count_trimSpace {a : Char} (s : List Char) (h : isGoSpace a = false) :
    (trimSpace s).count a = s.count a := by
  unfold trimSpace
  rw [List.count_reverse, count_dropWhile _ h, List.count_reverse, count_dropWhile _ h]

theorem dropWhile_all_false {p : Char → Bool} {s : List Char}
    (h : ∀ c ∈ s, p c = false) : s.dropWhile p = s := by
  cases s with
  | nil => rfl
  | cons c t => exact dropWhile_cons_neg (h c (by simp))

theorem trimSpace_all {s : List Char} (h : ∀ c ∈ s, isGoSpace c = false) :
    trimSpace s = s := by
  unfold trimSpace
  rw [dropWhile_all_false h, dropWhile_all_false (fun c hc => h c (List.mem_reverse.mp hc)),
    List.reverse_reverse]

theorem trim_group_out {n : List Char} (hne : n ≠ [])
    (hall : ∀ c ∈ n, isGoSpace c = false) : trimSpace (n ++ [' ']) = n := by
  rcases (List.eq_nil_or_concat n).resolve_left hne with ⟨m, b, rfl⟩
  have hb : isGoSpace b = false := hall b (by simp [List.concat_eq_append])
  unfold trimSpace
  have hL : ((m.concat b ++ [' ']).dropWhile isGoSpace) = m.concat b ++ [' '] := by
    cases m with
    | nil =>
      simp only [List.concat_eq_append, List.nil_append, List.cons_append]
      exact dropWhile_cons_neg hb
    | cons c m2 =>
      have hc : isGoSpace c = false := hall c (by simp [List.concat_eq_append])
      simp only [List.concat_eq_append, List.cons_append]
      exact dropWhile_cons_neg hc
  rw [hL]
  have hrev : (m.concat b ++ [' ']).reverse = ' ' :: b :: m.reverse := by
    simp [List.concat_eq_append]
  rw [hrev]
  have hsp : isGoSpace ' ' = true := rfl
  rw [List.dropWhile_cons, if_pos hsp, dropWhile_cons_neg hb]
  simp [List.concat_eq_append]

theorem trim_end_space (a : Char) (x : List Char) (b : Char)
    (ha : isGoSpace a = false) (hb : isGoSpace b = false) :
    trimSpace (a :: (x ++ [b, ' '])) = a :: (x ++ [b]) := by
  unfold trimSpace
  rw [dropWhile_cons_neg ha]
  have hrev : (a :: (x ++ [b, ' '])).reverse = ' ' :: b :: (x.reverse ++ [a]) := by
    simp
  rw [hrev]
  have hsp : isGoSpace ' ' = true := rfl
  rw [List.dropWhile_cons, if_pos hsp, dropWhile_cons_neg hb]
  simp

theorem trim_val (v : List Char) :
    trimSpace (' ' :: '"' :: (v ++ ['"'])) = '"' :: (v ++ ['"']) := by
  unfold trimSpace
  have hsp : isGoSpace ' ' = true := rfl
  have hq : isGoSpace '"' = false := rfl
  rw [List.dropWhile_cons, if_pos hsp, dropWhile_cons_neg hq]
  have hrev : ('"' :: (v ++ ['"'])).reverse = '"' :: (v.reverse ++ ['"']) := by
    simp
  rw [hrev, dropWhile_cons_neg hq]
  simp

theorem nameChar_not_pat {c : Char} (h : nameChar c = true) : isPatSpace c = false := by
  cases hp : isPatSpace c with
  | false => rfl
  | true => simp [nameChar, hp] at h

theorem nameChar_not_go {c : Char} (h : nameChar c = true) : isGoSpace c = false := by
  cases hp : isGoSpace c with
  | false => rfl
  | true => simp [nameChar, hp] at h

theorem nameChar_ne {c : Char} (h : nameChar c = true) :
    c ≠ '<' ∧ c ≠ '%' ∧ c ≠ '=' ∧ c ≠ '"' := by
  simp [nameChar] at h
  tauto

theorem valueChar_ne {c : Char} (h : valueChar c = true) :
    c ≠ '%' ∧ c ≠ '"' ∧ c ≠ '<' := by
  simp [valueChar] at h
  tauto

theorem match_outTag (n s : List Char) (hne : n ≠ [])
    (hn : ∀ c ∈ n, nameChar c = true) :
    matchOutputAt (outTag n ++ s) = some (n ++ [' '], s) := by
  obtain ⟨n0, n1, rfl⟩ : ∃ a t, n = a :: t := by
    cases n with
    | nil => exact absurd rfl hne
    | cons a t => exact ⟨a, t, rfl⟩
  have hn0 := hn n0 (by simp)
  have hn1 : ∀ c ∈ n1, nameChar c = true := fun c hc => hn c (by simp [hc])
  have hTop : outTag (n0 :: n1) ++ s
      = '<' :: '%' :: '=' :: ' ' :: n0 :: (n1 ++ (' ' :: '%' :: '>' :: s)) := by
    simp [outTag]
  rw [hTop]
  simp only [matchOutputAt, true_and, and_self, ite_true]
  have hw : (' ' :: n0 :: (n1 ++ (' ' :: '%' :: '>' :: s))).takeWhile isPatSpace = [' '] := by
    rw [List.takeWhile_cons]
    simp only [show isPatSpace ' ' = true from rfl, if_true]
    rw [takeWhile_cons_neg (nameChar_not_pat hn0)]
  rw [hw]
  simp only [List.length_cons, List.length_nil, Nat.zero_add]
  refine findSome?_range_rev_succ _ 1 _ ?_
  simp only [List.drop_succ_cons, List.drop_zero]
  have hrun : List.takeWhile (fun d => d != '%') (n0 :: (n1 ++ (' ' :: '%' :: '>' :: s)))
      = n0 :: (n1 ++ [' ']) := by
    rw [List.takeWhile_cons]
    have : (n0 != '%') = true := by simp [(nameChar_ne hn0).2.1]
    simp only [this, if_true]
    rw [takeWhile_append_all (fun c hc => by simp [(nameChar_ne (hn1 c hc)).2.1])]
    rw [List.takeWhile_cons]
    simp only [show ((' ' : Char) != '%') = true from rfl, if_true]
    rw [takeWhile_cons_neg (by simp)]
  rw [hrun]
  have hlen : (n0 :: (n1 ++ [' '])).length = n1.length + 2 := by simp
  rw [hlen]
  refine findSome?_range_rev_succ _ (n1.length + 2) _ ?_
  have hsplit : n0 :: (n1 ++ (' ' :: '%' :: '>' :: s))
      = (n0 :: (n1 ++ [' '])) ++ ('%' :: '>' :: s) := by simp
  rw [hsplit]
  rw [if_neg (by omega)]
  rw [← hlen, List.drop_left, List.take_left]
  have hw2 : ('%' :: '>' :: s).takeWhile isPatSpace = [] := takeWhile_cons_neg rfl
  rw [hw2]
  simp only [List.length_nil, Nat.zero_add]
  refine findSome?_range_rev_succ _ 0 _ ?_
  simp only [List.drop_zero]
  simp

theorem match_asgTag (n v s : List Char) (hne : n ≠ [])
    (hn : ∀ c ∈ n, nameChar c = true) (hv : ∀ c ∈ v, valueChar c = true) :
    matchCodeAt (asgTag n v ++ s)
      = some (n ++ (' ' :: '=' :: ' ' :: '"' :: (v ++ ['"', ' '])), s) := by
  obtain ⟨n0, n1, rfl⟩ : ∃ a t, n = a :: t := by
    cases n with
    | nil => exact absurd rfl hne
    | cons a t => exact ⟨a, t, rfl⟩
  have hn0 := hn n0 (by simp)
  have hn1 : ∀ c ∈ n1, nameChar c = true := fun c hc => hn c (by simp [hc])
  have hv' : ∀ c ∈ v, (c != '%') = true := fun c hc => by
    simp [(valueChar_ne (hv c hc)).1]
  have hTop : asgTag (n0 :: n1) v ++ s
      = '<' :: '%' :: ' ' :: n0 ::
          (n1 ++ (' ' :: '=' :: ' ' :: '"' :: (v ++ ('"' :: ' ' :: '%' :: '>' :: s)))) := by
    simp [asgTag]
  rw [hTop]
  simp only [matchCodeAt, true_and, and_self, ite_true]
  have hw : (' ' :: n0 ::
      (n1 ++ (' ' :: '=' :: ' ' :: '"' :: (v ++ ('"' :: ' ' :: '%' :: '>' :: s))))).takeWhile
        isPatSpace = [' '] := by
    rw [List.takeWhile_cons]
    simp only [show isPatSpace ' ' = true from rfl, if_true]
    rw [takeWhile_cons_neg (nameChar_not_pat hn0)]
  rw [hw]
  simp only [List.length_cons, List.length_nil, Nat.zero_add]
  refine findSome?_range_rev_succ _ 1 _ ?_
  simp only [List.drop_succ_cons, List.drop_zero]
  rw [if_neg ((nameChar_ne hn0).2.2.1)]
  have hMID : List.takeWhile (fun d => d != '%')
      (' ' :: '=' :: ' ' :: '"' :: (v ++ ('"' :: ' ' :: '%' :: '>' :: s)))
      = ' ' :: '=' :: ' ' :: '"' :: (v ++ ['"', ' ']) := by
    simp only [List.takeWhile_cons, show ((' ' : Char) != '%') = true from rfl,
      show (('=' : Char) != '%') = true from rfl,
      show (('"' : Char) != '%') = true from rfl, if_true]
    rw [takeWhile_append_all hv']
    simp only [List.takeWhile_cons, show (('"' : Char) != '%') = true from rfl,
      show ((' ' : Char) != '%') = true from rfl,
      show (('%' : Char) != '%') = false from rfl, if_true, Bool.false_eq_true, if_false]
  have hrun : List.takeWhile (fun d => d != '%')
      (n1 ++ (' ' :: '=' :: ' ' :: '"' :: (v ++ ('"' :: ' ' :: '%' :: '>' :: s))))
      = n1 ++ (' ' :: '=' :: ' ' :: '"' :: (v ++ ['"', ' '])) := by
    rw [takeWhile_append_all (fun c hc => by simp [(nameChar_ne (hn1 c hc)).2.1]), hMID]
  rw [hrun]
  have hsplit : n1 ++ (' ' :: '=' :: ' ' :: '"' :: (v ++ ('"' :: ' ' :: '%' :: '>' :: s)))
      = (n1 ++ (' ' :: '=' :: ' ' :: '"' :: (v ++ ['"', ' ']))) ++ ('%' :: '>' :: s) := by
    simp
  rw [hsplit]
  refine findSome?_range_rev_succ _
    ((n1 ++ (' ' :: '=' :: ' ' :: '"' :: (v ++ ['"', ' ']))).length) _ ?_
  rw [List.drop_left, List.take_left]
  have hw2 : ('%' :: '>' :: s).takeWhile isPatSpace = [] := takeWhile_cons_neg rfl
  rw [hw2]
  simp only [List.length_nil, Nat.zero_add]
  refine findSome?_range_rev_succ _ 0 _ ?_
  simp only [List.drop_zero]
  simp

theorem matchCodeAt_outTag (n s : List Char) :
    matchCodeAt (outTag n ++ s) = none := by
  have hTop : outTag n ++ s
      = '<' :: '%' :: ('=' :: ' ' :: (n ++ (' ' :: '%' :: '>' :: s))) := by
    simp [outTag]
  rw [hTop]
  simp only [matchCodeAt, true_and, and_self, ite_true]
  have hw : ('=' :: ' ' :: (n ++ (' ' :: '%' :: '>' :: s))).takeWhile isPatSpace = [] :=
    takeWhile_cons_neg rfl
  rw [hw]
  simp only [List.length_nil, Nat.zero_add]
  rw [show (List.range 1).reverse = [0] from rfl]
  simp [List.findSome?]

theorem evalOutput_hit {sc : Scope} {ctx : ReqCtx} {e val : List Char}
    (h : scopeLookup sc e = some val) : evalOutput sc ctx e = val := by
  unfold evalOutput
  rw [h]

theorem scopeLookup_cons_self (n val : List Char) (sc : Scope) :
    scopeLookup ((n, val) :: sc) n = some val := by
  simp [scopeLookup]

theorem codeAssign_asg (sc : Scope) (n v : List Char) (hne : n ≠ [])
    (hn : ∀ c ∈ n, nameChar c = true) :
    codeAssign sc (n ++ (' ' :: '=' :: ' ' :: '"' :: (v ++ ['"', ' ']))) = .ok ((n, v) :: sc) := by
  obtain ⟨n0, n1, rfl⟩ : ∃ a t, n = a :: t := by
    cases n with
    | nil => exact absurd rfl hne
    | cons a t => exact ⟨a, t, rfl⟩
  have hn0 := hn n0 (by simp)
  have hsh : (n0 :: n1) ++ (' ' :: '=' :: ' ' :: '"' :: (v ++ ['"', ' ']))
      = n0 :: ((n1 ++ (' ' :: '=' :: ' ' :: '"' :: v)) ++ ['"', ' ']) := by
    simp
  simp only [codeAssign]
  rw [hsh, trim_end_space n0 (n1 ++ (' ' :: '=' :: ' ' :: '"' :: v)) '"'
    (nameChar_not_go hn0) rfl]
  have hsh2 : n0 :: ((n1 ++ (' ' :: '=' :: ' ' :: '"' :: v)) ++ ['"'])
      = ((n0 :: n1) ++ [' ']) ++ ('=' :: (' ' :: '"' :: (v ++ ['"']))) := by
    simp
  rw [hsh2]
  have hnomem : '=' ∉ (n0 :: n1) ++ [' '] := by
    intro hm
    rcases List.mem_append.mp hm with hm1 | hm2
    · exact (nameChar_ne (hn _ hm1)).2.2.1 rfl
    · simp at hm2
  rw [splitFirst_append hnomem]
  show (if (trimSpace (' ' :: '"' :: (v ++ ['"']))).head? = some '"' ∧
          (trimSpace (' ' :: '"' :: (v ++ ['"']))).getLast? = some '"' then
        if (trimSpace (' ' :: '"' :: (v ++ ['"']))).length = 1 then Except.error ()
        else Except.ok ((trimSpace ((n0 :: n1) ++ [' ']),
          (List.drop 1 (trimSpace (' ' :: '"' :: (v ++ ['"'])))).dropLast) :: sc)
      else Except.ok ((trimSpace ((n0 :: n1) ++ [' ']),
        trimSpace (' ' :: '"' :: (v ++ ['"']))) :: sc))
      = Except.ok ((n0 :: n1, v) :: sc)
  rw [trim_val v]
  rw [trim_group_out (by simp) (fun c hc => nameChar_not_go (hn c hc))]
  have hq1 : ('"' :: (v ++ ['"'])).head? = some '"' := rfl
  have hq2 : ('"' :: (v ++ ['"'])).getLast? = some '"' := by
    rw [show ('"' :: (v ++ ['"'])) = ('"' :: v) ++ ['"'] by simp]
    exact List.getLast?_concat _
  rw [if_pos (And.intro hq1 hq2)]
  have hlen : ('"' :: (v ++ ['"'])).length = v.length + 2 := by simp
  rw [if_neg (by rw [hlen]; omega)]
  have hstr : (List.drop 1 ('"' :: (v ++ ['"']))).dropLast = v := by
    simp [List.dropLast_concat]
  rw [hstr]

theorem outTag_shape (n z : List Char) :
    outTag n ++ z = '<' :: (('%' :: '=' :: ' ' :: (n ++ [' ', '%', '>'])) ++ z) := by
  simp [outTag]

theorem asgTag_shape (n v z : List Char) :
    asgTag n v ++ z
      = '<' :: (('%' :: ' ' ::
          (n ++ (' ' :: '=' :: ' ' :: '"' :: (v ++ ['"', ' ', '%', '>'])))) ++ z) := by
  simp [asgTag]

theorem outTag_inner_ne (n : List Char) (hn : ∀ c ∈ n, nameChar c = true) :
    ∀ c ∈ '%' :: '=' :: ' ' :: (n ++ [' ', '%', '>']), c ≠ '<' := by
  intro c hc
  simp only [List.mem_cons, List.mem_append, List.not_mem_nil, or_false] at hc
  rcases hc with rfl | rfl | rfl | hcn | rfl | rfl | rfl
  · decide
  · decide
  · decide
  · exact (nameChar_ne (hn c hcn)).1
  · decide
  · decide
  · decide

theorem asgTag_inner_ne (n v : List Char) (hn : ∀ c ∈ n, nameChar c = true)
    (hv : ∀ c ∈ v, valueChar c = true) :
    ∀ c ∈ '%' :: ' ' :: (n ++ (' ' :: '=' :: ' ' :: '"' :: (v ++ ['"', ' ', '%', '>']))),
      c ≠ '<' := by
  intro c hc
  simp only [List.mem_cons, List.mem_append, List.not_mem_nil, or_false] at hc
  rcases hc with rfl | rfl | hcn | rfl | rfl | rfl | rfl | hcv | rfl | rfl | rfl | rfl
  · decide
  · decide
  · exact (nameChar_ne (hn c hcn)).1
  · decide
  · decide
  · decide
  · decide
  · exact (valueChar_ne (hv c hcv)).2.2
  · decide
  · decide
  · decide
  · decide

theorem inc_skip_outTag (fetch : List Char → Except (List Char) (List Char))
    (n : List Char) (hn : ∀ c ∈ n, nameChar c = true) :
    ∀ m z, processIncludes fetch ((outTag n).length + m) (outTag n ++ z)
      = (processIncludes fetch m z).map (fun t => outTag n ++ t) := by
  intro m z
  have hlen : (outTag n).length + m
      = (('%' :: '=' :: ' ' :: (n ++ [' ', '%', '>'])).length + m) + 1 := by
    simp [outTag]; omega
  rw [outTag_shape, hlen]
  have hnone : matchIncludeAt
      ('<' :: (('%' :: '=' :: ' ' :: (n ++ [' ', '%', '>'])) ++ z)) = none := by
    have hsh : '<' :: (('%' :: '=' :: ' ' :: (n ++ [' ', '%', '>'])) ++ z)
        = '<' :: '%' :: '=' :: (' ' :: ((n ++ [' ', '%', '>']) ++ z)) := by simp
    rw [hsh]
    exact matchIncludeAt_out _
  have hstep : processIncludes fetch
      ((('%' :: '=' :: ' ' :: (n ++ [' ', '%', '>'])).length + m) + 1)
      ('<' :: (('%' :: '=' :: ' ' :: (n ++ [' ', '%', '>'])) ++ z))
      = (processIncludes fetch (('%' :: '=' :: ' ' :: (n ++ [' ', '%', '>'])).length + m)
          (('%' :: '=' :: ' ' :: (n ++ [' ', '%', '>'])) ++ z)).map (fun t => '<' :: t) := by
    simp only [processIncludes, hnone]
  rw [hstep, processIncludes_skip fetch _ z (outTag_inner_ne n hn) m]
  cases processIncludes fetch m z <;> simp [outTag]

theorem inc_skip_asgTag (fetch : List Char → Except (List Char) (List Char))
    (n v : List Char) (hn : ∀ c ∈ n, nameChar c = true)
    (hv : ∀ c ∈ v, valueChar c = true) :
    ∀ m z, processIncludes fetch ((asgTag n v).length + m) (asgTag n v ++ z)
      = (processIncludes fetch m z).map (fun t => asgTag n v ++ t) := by
  intro m z
  have hlen : (asgTag n v).length + m
      = ((('%' :: ' ' ::
          (n ++ (' ' :: '=' :: ' ' :: '"' :: (v ++ ['"', ' ', '%', '>']))))).length + m) + 1 := by
    simp [asgTag]; omega
  rw [asgTag_shape, hlen]
  have hnone : matchIncludeAt
      ('<' :: (('%' :: ' ' ::
        (n ++ (' ' :: '=' :: ' ' :: '"' :: (v ++ ['"', ' ', '%', '>'])))) ++ z)) = none := by
    have hsh : '<' :: (('%' :: ' ' ::
        (n ++ (' ' :: '=' :: ' ' :: '"' :: (v ++ ['"', ' ', '%', '>'])))) ++ z)
        = '<' :: '%' :: ' ' ::
            ((n ++ (' ' :: '=' :: ' ' :: '"' :: (v ++ ['"', ' ', '%', '>']))) ++ z) := by simp
    rw [hsh]
    exact matchIncludeAt_asg _
  have hstep : processIncludes fetch
      ((('%' :: ' ' ::
        (n ++ (' ' :: '=' :: ' ' :: '"' :: (v ++ ['"', ' ', '%', '>'])))).length + m) + 1)
      ('<' :: (('%' :: ' ' ::
        (n ++ (' ' :: '=' :: ' ' :: '"' :: (v ++ ['"', ' ', '%', '>'])))) ++ z))
      = (processIncludes fetch
          (('%' :: ' ' ::
            (n ++ (' ' :: '=' :: ' ' :: '"' :: (v ++ ['"', ' ', '%', '>'])))).length + m)
          (('%' :: ' ' ::
            (n ++ (' ' :: '=' :: ' ' :: '"' :: (v ++ ['"', ' ', '%', '>'])))) ++ z)).map
          (fun t => '<' :: t) := by
    simp only [processIncludes, hnone]
  rw [hstep, processIncludes_skip fetch _ z (asgTag_inner_ne n v hn hv) m]
  cases processIncludes fetch m z <;> simp [asgTag]

theorem code_skip_outTag (n : List Char) (hn : ∀ c ∈ n, nameChar c = true) :
    ∀ m sc z, processCodeExpressions ((outTag n).length + m) sc (outTag n ++ z)
      = (processCodeExpressions m sc z).map (fun p => (p.1, outTag n ++ p.2)) := by
  intro m sc z
  have hlen : (outTag n).length + m
      = (('%' :: '=' :: ' ' :: (n ++ [' ', '%', '>'])).length + m) + 1 := by
    simp [outTag]; omega
  have hnone : matchCodeAt (outTag n ++ z) = none := matchCodeAt_outTag n z
  rw [outTag_shape] at hnone
  rw [outTag_shape, hlen]
  have hstep : processCodeExpressions
      ((('%' :: '=' :: ' ' :: (n ++ [' ', '%', '>'])).length + m) + 1) sc
      ('<' :: (('%' :: '=' :: ' ' :: (n ++ [' ', '%', '>'])) ++ z))
      = (processCodeExpressions (('%' :: '=' :: ' ' :: (n ++ [' ', '%', '>'])).length + m) sc
          (('%' :: '=' :: ' ' :: (n ++ [' ', '%', '>'])) ++ z)).map
          (fun p => (p.1, '<' :: p.2)) := by
    simp only [processCodeExpressions, hnone]
  rw [hstep, processCodeExpressions_skip _ z (outTag_inner_ne n hn) m sc]
  cases processCodeExpressions m sc z <;> simp [outTag, Except.map]

theorem code_match_asgTag (n v z : List Char) (sc : Scope) (hne : n ≠ [])
    (hn : ∀ c ∈ n, nameChar c = true) (hv : ∀ c ∈ v, valueChar c = true) :
    ∀ m, processCodeExpressions (m + 1) sc (asgTag n v ++ z)
      = processCodeExpressions m ((n, v) :: sc) z := by
  intro m
  have hm : matchCodeAt (asgTag n v ++ z)
      = some (n ++ (' ' :: '=' :: ' ' :: '"' :: (v ++ ['"', ' '])), z) :=
    match_asgTag n v z hne hn hv
  rw [asgTag_shape] at hm
  have ha : codeAssign sc (n ++ (' ' :: '=' :: ' ' :: '"' :: (v ++ ['"', ' '])))
      = .ok ((n, v) :: sc) := codeAssign_asg sc n v hne hn
  rw [asgTag_shape]
  simp only [processCodeExpressions, hm, ha]

theorem out_match_outTag (ev : List Char → List Char) (n z : List Char) (hne : n ≠ [])
    (hn : ∀ c ∈ n, nameChar c = true) :
    ∀ m, processOutputTagsWith ev (m + 1) (outTag n ++ z)
      = ev (trimSpace (n ++ [' '])) ++ processOutputTagsWith ev m z := by
  intro m
  have hm : matchOutputAt (outTag n ++ z) = some (n ++ [' '], z) :=
    match_outTag n z hne hn
  rw [outTag_shape] at hm
  rw [outTag_shape]
  simp only [processOutputTagsWith, hm]

theorem no_match_inc_of_ne {s : List Char} (h : ∀ c ∈ s, c ≠ '<') :
    ∀ i < s.length, matchIncludeAt (s.drop i) = none := by
  intro i hi
  rw [List.drop_eq_getElem_cons hi]
  exact matchIncludeAt_ne _ (h _ (List.getElem_mem hi))

theorem no_match_code_of_ne {s : List Char} (h : ∀ c ∈ s, c ≠ '<') :
    ∀ i < s.length, matchCodeAt (s.drop i) = none := by
  intro i hi
  rw [List.drop_eq_getElem_cons hi]
  exact matchCodeAt_ne _ (h _ (List.getElem_mem hi))

theorem no_match_out_of_ne {s : List Char} (h : ∀ c ∈ s, c ≠ '<') :
    ∀ i < s.length, matchOutputAt (s.drop i) = none := by
  intro i hi
  rw [List.drop_eq_getElem_cons hi]
  exact matchOutputAt_ne _ (h _ (List.getElem_mem hi))

theorem c5_pass_inc (fetch : List Char → Except (List Char) (List Char))
    (p1 p2 p3 n v : List Char)
    (hp1 : ∀ c ∈ p1, c ≠ '<') (hp2 : ∀ c ∈ p2, c ≠ '<') (hp3 : ∀ c ∈ p3, c ≠ '<')
    (hn : ∀ c ∈ n, nameChar c = true) (hv : ∀ c ∈ v, valueChar c = true) (m : Nat) :
    processIncludes fetch
        ((p1 ++ (outTag n ++ (p2 ++ (asgTag n v ++ p3)))).length + (m + 1))
        (p1 ++ (outTag n ++ (p2 ++ (asgTag n v ++ p3))))
      = some (p1 ++ (outTag n ++ (p2 ++ (asgTag n v ++ p3)))) := by
  rw [show (p1 ++ (outTag n ++ (p2 ++ (asgTag n v ++ p3)))).length + (m + 1)
      = p1.length + ((outTag n ++ (p2 ++ (asgTag n v ++ p3))).length + (m + 1)) from by
    simp [List.length_append]; omega]
  rw [processIncludes_skip fetch p1 _ hp1 _]
  rw [show (outTag n ++ (p2 ++ (asgTag n v ++ p3))).length + (m + 1)
      = (outTag n).length + ((p2 ++ (asgTag n v ++ p3)).length + (m + 1)) from by
    simp [List.length_append]; omega]
  rw [inc_skip_outTag fetch n hn _ _]
  rw [show (p2 ++ (asgTag n v ++ p3)).length + (m + 1)
      = p2.length + ((asgTag n v ++ p3).length + (m + 1)) from by
    simp [List.length_append]; omega]
  rw [processIncludes_skip fetch p2 _ hp2 _]
  rw [show (asgTag n v ++ p3).length + (m + 1)
      = (asgTag n v).length + (p3.length + (m + 1)) from by
    simp [List.length_append]; omega]
  rw [inc_skip_asgTag fetch n v hn hv _ _]
  rw [processIncludes_id fetch p3 (no_match_inc_of_ne hp3) (p3.length + (m + 1)) (by omega)]
  simp

theorem c5_pass_code (p1 p2 p3 n v : List Char) (sc : Scope)
    (hp1 : ∀ c ∈ p1, c ≠ '<') (hp2 : ∀ c ∈ p2, c ≠ '<') (hp3 : ∀ c ∈ p3, c ≠ '<')
    (hne : n ≠ []) (hn : ∀ c ∈ n, nameChar c = true) (hv : ∀ c ∈ v, valueChar c = true)
    (m : Nat) :
    processCodeExpressions
        ((p1 ++ (outTag n ++ (p2 ++ (asgTag n v ++ p3)))).length + (m + 1)) sc
        (p1 ++ (outTag n ++ (p2 ++ (asgTag n v ++ p3))))
      = .ok ((n, v) :: sc, p1 ++ (outTag n ++ (p2 ++ p3))) := by
  have hasglen : (asgTag n v).length = n.length + v.length + 11 := by simp [asgTag]; omega
  rw [show (p1 ++ (outTag n ++ (p2 ++ (asgTag n v ++ p3)))).length + (m + 1)
      = p1.length + ((outTag n ++ (p2 ++ (asgTag n v ++ p3))).length + (m + 1)) from by
    simp [List.length_append]; omega]
  rw [processCodeExpressions_skip p1 _ hp1 _ sc]
  rw [show (outTag n ++ (p2 ++ (asgTag n v ++ p3))).length + (m + 1)
      = (outTag n).length + ((p2 ++ (asgTag n v ++ p3)).length + (m + 1)) from by
    simp [List.length_append]; omega]
  rw [code_skip_outTag n hn _ sc _]
  rw [show (p2 ++ (asgTag n v ++ p3)).length + (m + 1)
      = p2.length + ((asgTag n v ++ p3).length + (m + 1)) from by
    simp [List.length_append]; omega]
  rw [processCodeExpressions_skip p2 _ hp2 _ sc]
  rw [show (asgTag n v ++ p3).length + (m + 1)
      = ((asgTag n v).length + p3.length + m) + 1 from by
    simp [List.length_append]; omega]
  rw [code_match_asgTag n v p3 sc hne hn hv _]
  rw [processCodeExpressions_id p3 (no_match_code_of_ne hp3)
    ((asgTag n v).length + p3.length + m) ((n, v) :: sc) (by omega)]
  simp [Except.map]

theorem c5_pass_out (p1 p2 p3 n v : List Char) (sc : Scope) (ctx : ReqCtx)
    (hp1 : ∀ c ∈ p1, c ≠ '<') (hp2 : ∀ c ∈ p2, c ≠ '<') (hp3 : ∀ c ∈ p3, c ≠ '<')
    (hne : n ≠ []) (hn : ∀ c ∈ n, nameChar c = true) (m : Nat) :
    processOutputTagsWith (evalOutput ((n, v) :: sc) ctx)
        ((p1 ++ (outTag n ++ (p2 ++ p3))).length + (m + 1))
        (p1 ++ (outTag n ++ (p2 ++ p3)))
      = p1 ++ (v ++ (p2 ++ p3)) := by
  have houtlen : (outTag n).length = n.length + 7 := by simp [outTag]
  rw [show (p1 ++ (outTag n ++ (p2 ++ p3))).length + (m + 1)
      = p1.length + ((outTag n ++ (p2 ++ p3)).length + (m + 1)) from by
    simp [List.length_append]; omega]
  rw [processOutputTagsWith_skip _ p1 _ hp1 _]
  rw [show (outTag n ++ (p2 ++ p3)).length + (m + 1)
      = ((outTag n).length + (p2 ++ p3).length + m) + 1 from by
    simp [List.length_append]; omega]
  rw [out_match_outTag _ n _ hne hn _]
  rw [trim_group_out hne (fun c hc => nameChar_not_go (hn c hc))]
  rw [evalOutput_hit (scopeLookup_cons_self n v sc)]
  rw [processOutputTagsWith_id _ (p2 ++ p3)
    (no_match_out_of_ne (fun c hc => by
      rcases List.mem_append.mp hc with h1 | h2
      · exact hp2 c h1
      · exact hp3 c h2)) _ (by simp [List.length_append]; omega)]

/-- C5 (amended): all code blocks run before any output expression resolves,
so for a well-formed assignment and an output tag of the same name placed
anywhere in the document — here the interesting direction, with the output
tag BEFORE the only assignment to that name — the output contains the
assigned value verbatim.  (With several assignments to one name only the
last value appears, see the counterexample.) -/
theorem c5_document_wide_visibility (p1 p2 p3 n v : List Char)
    (fetch : List Char → Except (List Char) (List Char)) (ctx : ReqCtx) (fuel : Nat)
    (hp1 : ∀ c ∈ p1, c ≠ '<') (hp2 : ∀ c ∈ p2, c ≠ '<') (hp3 : ∀ c ∈ p3, c ≠ '<')
    (hne : n ≠ []) (hn : ∀ c ∈ n, nameChar c = true) (hv : ∀ c ∈ v, valueChar c = true)
    (hfuel : (p1 ++ (outTag n ++ (p2 ++ (asgTag n v ++ p3)))).length < fuel) :
    processTemplateFS fuel fetch ctx (p1 ++ (outTag n ++ (p2 ++ (asgTag n v ++ p3))))
      = some (.ok (p1 ++ (v ++ (p2 ++ p3)), none)) := by
  obtain ⟨k, hk⟩ := Nat.exists_eq_add_of_le hfuel
  have h1 : processIncludes fetch fuel (p1 ++ (outTag n ++ (p2 ++ (asgTag n v ++ p3))))
      = some (p1 ++ (outTag n ++ (p2 ++ (asgTag n v ++ p3)))) := by
    rw [show fuel = (p1 ++ (outTag n ++ (p2 ++ (asgTag n v ++ p3)))).length + (k + 1) from by
      omega]
    exact c5_pass_inc fetch p1 p2 p3 n v hp1 hp2 hp3 hn hv k
  have h2 : processCodeTop (initScopeFS ctx) (p1 ++ (outTag n ++ (p2 ++ (asgTag n v ++ p3))))
      = .ok ((n, v) :: initScopeFS ctx, p1 ++ (outTag n ++ (p2 ++ p3))) :=
    c5_pass_code p1 p2 p3 n v (initScopeFS ctx) hp1 hp2 hp3 hne hn hv 0
  have h3 : processOutputTags ((n, v) :: initScopeFS ctx) ctx
      (p1 ++ (outTag n ++ (p2 ++ p3))) = p1 ++ (v ++ (p2 ++ p3)) :=
    c5_pass_out p1 p2 p3 n v (initScopeFS ctx) ctx hp1 hp2 hp3 hne hn 0
  simp only [processTemplateFS, h1, h2, h3]

/-- C3 (amended): a document in which no position matches any of the three
directive patterns is passed through the whole expansion unchanged, and the
code pass leaves any scope untouched.  (A malformed include tag can still
match the code-block pattern and is then consumed, see the
counterexample.) -/
theorem c3_unmatched_identity (fetch : List Char → Except (List Char) (List Char))
    (ctx : ReqCtx) (fuel : Nat) (s : List Char)
    (hfuel : s.length < fuel)
    (h1 : ∀ i < s.length, matchIncludeAt (s.drop i) = none)
    (h2 : ∀ i < s.length, matchCodeAt (s.drop i) = none)
    (h3 : ∀ i < s.length, matchOutputAt (s.drop i) = none) :
    processTemplateFS fuel fetch ctx s = some (.ok (s, none))
      ∧ ∀ sc : Scope, processCodeTop sc s = .ok (sc, s) := by
  have hinc := processIncludes_id fetch s h1 fuel hfuel
  have hcode : ∀ sc : Scope, processCodeTop sc s = .ok (sc, s) := fun sc =>
    processCodeExpressions_id s h2 (s.length + 1) sc (by omega)
  refine ⟨?_, hcode⟩
  simp only [processTemplateFS, hinc, hcode (initScopeFS ctx)]
  rw [processOutputTags, processOutputTagsWith_id _ s h3 _ (by omega)]

/-- C6: include expansion has no cycle detection: for every registry with a
set of contents that is an include cycle (each member's first include match
fetches another member or scans on into a member), expansion of any member
runs out of any amount of fuel — the Go code recurses forever. -/
theorem c6_cycle_diverges (fetch : List Char → Except (List Char) (List Char))
    (P : List Char → Prop) (hcyc : IncludeCycle fetch P)
    (s : List Char) (hs : P s) (nfuel : Nat) :
    processIncludes fetch nfuel s = none := by
  suffices H : ∀ nf s2, (∃ p g rest, (∀ i < p, matchIncludeAt (s2.drop i) = none) ∧
      matchIncludeAt (s2.drop p) = some (g, rest) ∧
      ((∃ s3, fetch g = .ok s3 ∧ P s3) ∨ P rest)) →
      processIncludes fetch nf s2 = none by
    exact H nfuel s (hcyc s hs)
  intro nf
  induction nf using Nat.strong_induction_on with
  | _ nf ih =>
    rintro s2 ⟨p, g, rest, hpre, hm, hnext⟩
    cases nf with
    | zero => rfl
    | succ nf2 =>
      cases s2 with
      | nil =>
        rw [List.drop_nil, matchIncludeAt_nil] at hm
        cases hm
      | cons c cs =>
        cases p with
        | zero =>
          simp only [List.drop_zero] at hm
          simp only [processIncludes, hm]
          rcases hnext with ⟨s3, hf, hP3⟩ | hPrest
          · have h3 : processIncludes fetch nf2 s3 = none :=
              ih nf2 (by omega) s3 (hcyc s3 hP3)
            simp only [hf, h3]
          · have hr : processIncludes fetch nf2 rest = none :=
              ih nf2 (by omega) rest (hcyc rest hPrest)
            cases hf : fetch g with
            | error e => simp only [hr, Option.map_none']
            | ok s3 =>
              have hgoal : (match processIncludes fetch nf2 s3 with
                  | none => none
                  | some repl =>
                    Option.map (fun tail => repl ++ tail) (processIncludes fetch nf2 rest))
                  = none := by
                cases processIncludes fetch nf2 s3 with
                | none => rfl
                | some repl => rw [hr]; rfl
              exact hgoal
        | succ p2 =>
          have h0 : matchIncludeAt (c :: cs) = none := by
            have := hpre 0 (by omega)
            simpa using this
          simp only [processIncludes, h0]
          have hq : processIncludes fetch nf2 cs = none := by
            refine ih nf2 (by omega) cs ⟨p2, g, rest, ?_, ?_, hnext⟩
            · intro i hi
              exact hpre (i + 1) (by omega)
            · exact hm
          rw [hq]
          rfl

/-- C7: when an include match's target fails to resolve, the match is
substituted with the inline comment-style marker carrying the failure
description, and the scan continues on the remaining text — a failed
include never aborts the render of the rest of the document. -/
theorem c7_include_error_marker (fetch : List Char → Except (List Char) (List Char))
    (nf : Nat) (s g rest e : List Char)
    (hm : matchIncludeAt s = some (g, rest)) (he : fetch g = .error e) :
    processIncludes fetch (nf + 1) s
      = (processIncludes fetch nf rest).map (fun tail => includeErrMarkerFS e ++ tail) := by
  cases s with
  | nil => rw [matchIncludeAt_nil] at hm; cases hm
  | cons c cs => simp only [processIncludes, hm, he]

theorem take_takeWhile_sub {p : Char → Bool} {u : List Char} {rl : Nat}
    (hle : rl ≤ (u.takeWhile p).length) : ∀ d ∈ u.take rl, p d = true := by
  intro d hd
  have hsplit := List.takeWhile_append_dropWhile p u
  have htake : u.take rl = (u.takeWhile p).take rl := by
    conv in u.take rl => rw [← hsplit]
    rw [List.take_append_of_le_length hle]
  rw [htake] at hd
  exact List.mem_takeWhile_imp (List.take_subset _ _ hd)

theorem matchCodeAt_group_no_pct {s g rest : List Char}
    (h : matchCodeAt s = some (g, rest)) : ∀ d ∈ g.drop 1, d ≠ '%' := by
  cases s with
  | nil => cases h
  | cons a s1 =>
    cases s1 with
    | nil => cases h
    | cons b t =>
      by_cases hab : a = '<' ∧ b = '%'
      case neg =>
        simp only [matchCodeAt, if_neg hab] at h
        cases h
      case pos =>
        simp only [matchCodeAt, if_pos hab] at h
        rcases List.exists_of_findSome?_eq_some h with ⟨k, hk_mem, hk⟩
        split at hk
        · simp at hk
        · split at hk
          · simp at hk
          · rcases List.exists_of_findSome?_eq_some hk with ⟨rl, hrl_mem, hrl⟩
            rcases List.exists_of_findSome?_eq_some hrl with ⟨w2, hw2_mem, hw2⟩
            rename_i c u heq hc
            have hle : rl ≤ (u.takeWhile (fun d => d != '%')).length := by
              have := List.mem_range.mp (List.mem_reverse.mp hrl_mem)
              omega
            split at hw2
            · have hpair := Option.some.inj hw2
              have hg : g = c :: u.take rl := by
                have := congrArg Prod.fst hpair
                exact this.symm
              rw [hg]
              intro d hd
              have hdm : d ∈ u.take rl := by simpa using hd
              have := take_takeWhile_sub hle d hdm
              simpa using this
            · cases hw2

theorem matchOutputAt_group_no_pct {s g rest : List Char}
    (h : matchOutputAt s = some (g, rest)) : ∀ d ∈ g, d ≠ '%' := by
  cases s with
  | nil => cases h
  | cons a s1 =>
    cases s1 with
    | nil => cases h
    | cons b s2 =>
      cases s2 with
      | nil => cases h
      | cons c t =>
        by_cases hab : a = '<' ∧ b = '%' ∧ c = '='
        case neg =>
          simp only [matchOutputAt, if_neg hab] at h
          cases h
        case pos =>
          simp only [matchOutputAt, if_pos hab] at h
          rcases List.exists_of_findSome?_eq_some h with ⟨k, hk_mem, hk⟩
          rcases List.exists_of_findSome?_eq_some hk with ⟨rl, hrl_mem, hrl⟩
          by_cases hz : rl = 0
          · rw [if_pos hz] at hrl
            cases hrl
          · rw [if_neg hz] at hrl
            rcases List.exists_of_findSome?_eq_some hrl with ⟨w2, hw2_mem, hw2⟩
            have hle : rl ≤ ((t.drop k).takeWhile (fun d => d != '%')).length := by
              have := List.mem_range.mp (List.mem_reverse.mp hrl_mem)
              omega
            split at hw2
            · have hpair := Option.some.inj hw2
              have hg : g = (t.drop k).take rl := by
                have := congrArg Prod.fst hpair
                exact this.symm
              rw [hg]
              intro d hd
              have := take_takeWhile_sub hle d hd
              simpa using this
            · cases hw2

/-- C1 (amended): `evaluateSimpleExpression` splits on every `+`.  When the
expression is `l + r` with a single `+`, the two trimmed operands are added
as base-10 integers when both parse, and otherwise concatenated with the
separator dropped; when the expression contains two or more `+` characters
it is returned unchanged (it falls through to the echo rule, since a string
with two `+` cannot itself parse as an integer). -/
theorem c1_arith_split (e l r : List Char) :
    (e = l ++ '+' :: r → '+' ∉ l → '+' ∉ r →
      evaluateSimpleExpression e
        = (match atoi (trimSpace l), atoi (trimSpace r) with
           | some a, some b => itoa (a + b)
           | _, _ => trimSpace l ++ trimSpace r))
    ∧ (2 ≤ e.count '+' → evaluateSimpleExpression e = e) := by
  constructor
  · rintro rfl hl hr
    have hsp : splitOnChar '+' (l ++ '+' :: r) = [l, r] := by
      rw [splitOnChar_sep_mid hl, splitOnChar_of_not_mem hr]
    simp only [evaluateSimpleExpression, hsp]
    cases atoi (trimSpace l) <;> cases atoi (trimSpace r) <;> rfl
  · intro hcount
    have hlen : (splitOnChar '+' e).length = e.count '+' + 1 := length_splitOnChar _ _
    have hatoi : atoi (trimSpace e) = none := by
      cases ha : atoi (trimSpace e) with
      | none => rfl
      | some v =>
        have h1 := atoi_count_plus ha
        rw [count_trimSpace e (by rfl)] at h1
        omega
    rcases hsp : splitOnChar '+' e with _ | ⟨x, xs⟩
    · rw [hsp] at hlen; simp at hlen
    · rcases xs with _ | ⟨y, ys⟩
      · rw [hsp] at hlen; simp at hlen; omega
      · rcases ys with _ | ⟨z, zs⟩
        · rw [hsp] at hlen; simp at hlen; omega
        · simp only [evaluateSimpleExpression, hsp, hatoi]

/-- C4 (amended): for a matched code block whose trimmed body splits at its
first `=` into `l` and `r`: when the trimmed value is exactly the single
character `"` the render panics (slice bounds); otherwise the pair (trimmed
name, value with one layer of surrounding double quotes stripped when
present on both ends) is written to the scope with last write winning, and
a matched block contributes nothing to the output text. -/
theorem c4_code_assign (sc : Scope) (g l r : List Char) :
    (trimSpace g = l ++ '=' :: r → '=' ∉ l →
      codeAssign sc g
        = (if trimSpace r = ['"'] then .error ()
           else if (trimSpace r).head? = some '"' ∧ (trimSpace r).getLast? = some '"' then
             .ok ((trimSpace l, (List.drop 1 (trimSpace r)).dropLast) :: sc)
           else .ok ((trimSpace l, trimSpace r) :: sc)))
    ∧ ('=' ∉ trimSpace g → codeAssign sc g = .ok sc)
    ∧ (∀ (k val : List Char) (sc2 : Scope), scopeLookup ((k, val) :: sc2) k = some val)
    ∧ (∀ (m : Nat) (s g2 rest : List Char) (sc0 sc1 : Scope),
        matchCodeAt s = some (g2, rest) → codeAssign sc0 g2 = .ok sc1 →
        processCodeExpressions (m + 1) sc0 s = processCodeExpressions m sc1 rest) := by
  refine ⟨?_, ?_, ?_, ?_⟩
  · intro hg hl
    simp only [codeAssign]
    rw [hg, splitFirst_append hl]
    show (if (trimSpace r).head? = some '"' ∧ (trimSpace r).getLast? = some '"' then
          if (trimSpace r).length = 1 then Except.error ()
          else Except.ok ((trimSpace l, (List.drop 1 (trimSpace r)).dropLast) :: sc)
        else Except.ok ((trimSpace l, trimSpace r) :: sc)) = _
    by_cases hq : (trimSpace r).head? = some '"' ∧ (trimSpace r).getLast? = some '"'
    · rw [if_pos hq]
      by_cases h1 : (trimSpace r).length = 1
      · rw [if_pos h1]
        have hone : trimSpace r = ['"'] := by
          rcases hval : trimSpace r with _ | ⟨x, xs⟩
          · rw [hval] at h1; simp at h1
          · rcases xs with _ | ⟨y, ys⟩
            · rw [hval] at hq
              have : x = '"' := by simpa using hq.1
              rw [this]
            · rw [hval] at h1; simp at h1
        rw [if_pos hone]
      · rw [if_neg h1]
        have hne : trimSpace r ≠ ['"'] := fun hh => h1 (by rw [hh]; rfl)
        rw [if_neg hne, if_pos hq]
    · rw [if_neg hq]
      have hne : trimSpace r ≠ ['"'] := fun hh => hq (by rw [hh]; exact ⟨rfl, rfl⟩)
      rw [if_neg hne, if_neg hq]
  · intro hnm
    simp only [codeAssign, splitFirst_of_not_mem hnm]
  · intro k val sc2
    simp [scopeLookup]
  · intro m s g2 rest sc0 sc1 hm ha
    cases s with
    | nil => rw [matchCodeAt_nil] at hm; cases hm
    | cons c cs => simp only [processCodeExpressions, hm, ha]

/-- C8: output-expression resolution order, first match wins: a scope
binding shadows everything; then `request.` dispatches to the fixed table
(method, url, host, remoteaddr) with unmapped suffixes echoed; then
`query.` and `form.` look up the named parameter; then an expression
containing `+` uses the arithmetic rule; otherwise the expression text is
echoed unchanged. -/
theorem c8_resolution_order (sc : Scope) (ctx : ReqCtx) (e val : List Char) :
    (scopeLookup sc e = some val → evalOutput sc ctx e = val)
    ∧ (scopeLookup sc e = none → (toL "request.").isPrefixOf e = true →
        evalOutput sc ctx e = handleRequestExpression ctx e
          ∧ (e ≠ toL "request.method" → e ≠ toL "request.url" → e ≠ toL "request.host" →
             e ≠ toL "request.remoteaddr" → handleRequestExpression ctx e = e))
    ∧ (scopeLookup sc e = none → (toL "request.").isPrefixOf e = false →
        (toL "query.").isPrefixOf e = true → evalOutput sc ctx e = ctx.query (e.drop 6))
    ∧ (scopeLookup sc e = none → (toL "request.").isPrefixOf e = false →
        (toL "query.").isPrefixOf e = false → (toL "form.").isPrefixOf e = true →
        evalOutput sc ctx e = ctx.form (e.drop 5))
    ∧ (scopeLookup sc e = none → (toL "request.").isPrefixOf e = false →
        (toL "query.").isPrefixOf e = false → (toL "form.").isPrefixOf e = false →
        e.contains '+' = true → evalOutput sc ctx e = evaluateSimpleExpression e)
    ∧ (scopeLookup sc e = none → (toL "request.").isPrefixOf e = false →
        (toL "query.").isPrefixOf e = false → (toL "form.").isPrefixOf e = false →
        e.contains '+' = false → evalOutput sc ctx e = e) := by
  refine ⟨?_, ?_, ?_, ?_, ?_, ?_⟩
  · intro h
    unfold evalOutput
    rw [h]
  · intro h h1
    constructor
    · unfold evalOutput
      rw [h, if_pos h1]
    · intro hm hu hh hr
      unfold handleRequestExpression
      rw [if_neg hm, if_neg hu, if_neg hh, if_neg hr]
  · intro h h1 h2
    unfold evalOutput
    rw [h]
    rw [if_neg (by simp [h1]), if_pos h2]
  · intro h h1 h2 h3
    unfold evalOutput
    rw [h]
    rw [if_neg (by simp [h1]), if_neg (by simp [h2]), if_pos h3]
  · intro h h1 h2 h3 h4
    unfold evalOutput
    rw [h]
    rw [if_neg (by simp [h1]), if_neg (by simp [h2]), if_neg (by simp [h3]), if_pos h4]
  · intro h h1 h2 h3 h4
    unfold evalOutput
    rw [h]
    rw [if_neg (by simp [h1]), if_neg (by simp [h2]), if_neg (by simp [h3]),
      if_neg (by rw [h4]; exact Bool.false_ne_true)]

/-- C9: `processTemplate` always returns a `nil` error: whenever the
filesystem-mode pipeline returns normally, the error component of its
result is `none`, so the serving handler's HTTP 500 "Template processing
error" branch is unreachable. -/
theorem c9_no_template_error (fuel : Nat)
    (fetch : List Char → Except (List Char) (List Char)) (ctx : ReqCtx)
    (s out : List Char) (err : Option (List Char))
    (h : processTemplateFS fuel fetch ctx s = some (.ok (out, err))) : err = none := by
  unfold processTemplateFS at h
  rcases h1 : processIncludes fetch fuel s with _ | c1 <;> rw [h1] at h
  · cases h
  · replace h : (match processCodeTop (initScopeFS ctx) c1 with
      | Except.error e => some (Except.error e)
      | Except.ok (sc, c2) => some (Except.ok (processOutputTags sc ctx c2, none)))
        = some (Except.ok (out, err)) := h
    rcases h2 : processCodeTop (initScopeFS ctx) c1 with e2 | ⟨sc, c2⟩ <;> rw [h2] at h
    · simp at h
    · replace h : some (Except.ok (processOutputTags sc ctx c2, none))
        = some (Except.ok (out, err)) := h
      simp only [Option.some.injEq, Except.ok.injEq, Prod.mk.injEq] at h
      exact h.2.symm

theorem codeAssign_cases (g : List Char) :
    (∀ sc : Scope, codeAssign sc g = .error ())
    ∨ (∀ sc : Scope, codeAssign sc g = .ok sc)
    ∨ (∃ kv, ∀ sc : Scope, codeAssign sc g = .ok (kv :: sc)) := by
  rcases hsp : splitFirst '=' (trimSpace g) with _ | ⟨l, r⟩
  · right; left
    intro sc
    simp only [codeAssign, hsp]
  · by_cases hq : (trimSpace r).head? = some '"' ∧ (trimSpace r).getLast? = some '"'
    · by_cases h1 : (trimSpace r).length = 1
      · left
        intro sc
        simp only [codeAssign, hsp]
        rw [if_pos hq, if_pos h1]
      · right; right
        refine ⟨(trimSpace l, (List.drop 1 (trimSpace r)).dropLast), fun sc => ?_⟩
        simp only [codeAssign, hsp]
        rw [if_pos hq, if_neg h1]
    · right; right
      refine ⟨(trimSpace l, trimSpace r), fun sc => ?_⟩
      simp only [codeAssign, hsp]
      rw [if_neg hq]

theorem processCodeExpressions_scope (nf : Nat) :
    ∀ s : List Char, (∀ sc : Scope, processCodeExpressions nf sc s = .error ())
      ∨ (∃ delta out, ∀ sc : Scope,
          processCodeExpressions nf sc s = .ok (delta ++ sc, out)) := by
  induction nf with
  | zero =>
    intro s
    right
    exact ⟨[], s, fun sc => rfl⟩
  | succ nf2 ih =>
    intro s
    cases s with
    | nil =>
      right
      exact ⟨[], [], fun sc => rfl⟩
    | cons c cs =>
      cases hm : matchCodeAt (c :: cs) with
      | none =>
        rcases ih cs with hall | ⟨delta, out, hok⟩
        · left
          intro sc
          simp only [processCodeExpressions, hm, hall sc]
          rfl
        · right
          refine ⟨delta, c :: out, fun sc => ?_⟩
          simp only [processCodeExpressions, hm, hok sc]
          rfl
      | some p =>
        rcases p with ⟨g, rest⟩
        rcases codeAssign_cases g with herr | hid | ⟨kv, hkv⟩
        · left
          intro sc
          simp only [processCodeExpressions, hm, herr sc]
        · rcases ih rest with hall | ⟨delta, out, hok⟩
          · left
            intro sc
            simp only [processCodeExpressions, hm, hid sc, hall sc]
          · right
            refine ⟨delta, out, fun sc => ?_⟩
            simp only [processCodeExpressions, hm, hid sc, hok sc]
        · rcases ih rest with hall | ⟨delta, out, hok⟩
          · left
            intro sc
            simp only [processCodeExpressions, hm, hkv sc, hall (kv :: sc)]
          · right
            refine ⟨delta ++ [kv], out, fun sc => ?_⟩
            simp only [processCodeExpressions, hm, hkv sc, hok (kv :: sc)]
            simp

theorem processOutputTagsWith_congr (f g : List Char → List Char) (nf : Nat) :
    ∀ s, (∀ e ∈ collectOutputExprs nf s, f e = g e) →
      processOutputTagsWith f nf s = processOutputTagsWith g nf s := by
  induction nf with
  | zero => intro s _; rfl
  | succ nf2 ih =>
    intro s h
    cases s with
    | nil => rfl
    | cons c cs =>
      cases hm : matchOutputAt (c :: cs) with
      | none =>
        simp only [processOutputTagsWith, hm]
        rw [ih cs (fun e he => h e (by simp only [collectOutputExprs, hm]; exact he))]
      | some p =>
        rcases p with ⟨gr, rest⟩
        simp only [processOutputTagsWith, hm]
        rw [h (trimSpace gr) (by simp only [collectOutputExprs, hm]; simp),
          ih rest (fun e he => h e (by simp only [collectOutputExprs, hm]; simp [he]))]

theorem scopeLookup_append (a b : Scope) (k : List Char) :
    scopeLookup (a ++ b) k
      = (match scopeLookup a k with
         | some v => some v
         | none => scopeLookup b k) := by
  induction a with
  | nil => simp [scopeLookup]
  | cons p t ih =>
    rcases p with ⟨k2, v⟩
    by_cases hk : k2 = k
    · simp only [List.cons_append, scopeLookup, if_pos hk]
    · simp only [List.cons_append, scopeLookup, if_neg hk, List.append_eq, ih]

theorem init_lookup_agree (ctx : ReqCtx) (e : List Char) (hpar : e ≠ toL "params") :
    scopeLookup (initScopeFS ctx) e = scopeLookup (initScopeEmb ctx) e := by
  simp only [initScopeFS, initScopeEmb, scopeLookup]
  by_cases h1 : toL "request" = e
  · rw [if_pos h1, if_pos h1]
  · rw [if_neg h1, if_neg h1]
    rw [if_neg (fun hh : toL "params" = e => hpar hh.symm)]

theorem handleRequest_agree (ctx : ReqCtx) (e : List Char)
    (hrem : e ≠ toL "request.remoteaddr") :
    handleRequestExpression ctx e = handleRequestExpressionEmb ctx e := by
  unfold handleRequestExpression handleRequestExpressionEmb
  by_cases h1 : e = toL "request.method"
  · rw [if_pos h1, if_pos h1]
  · rw [if_neg h1, if_neg h1]
    by_cases h2 : e = toL "request.url"
    · rw [if_pos h2, if_pos h2]
    · rw [if_neg h2, if_neg h2]
      by_cases h3 : e = toL "request.host"
      · rw [if_pos h3, if_pos h3]
      · rw [if_neg h3, if_neg h3, if_neg hrem]

theorem eval_agree (delta : Scope) (ctx : ReqCtx) (e : List Char)
    (hplus : e.contains '+' = false) (hrem : e ≠ toL "request.remoteaddr")
    (hpar : e ≠ toL "params") :
    evalOutput (delta ++ initScopeFS ctx) ctx e
      = evalOutputEmb (delta ++ initScopeEmb ctx) ctx e := by
  have hfs := scopeLookup_append delta (initScopeFS ctx) e
  have hemb := scopeLookup_append delta (initScopeEmb ctx) e
  unfold evalOutput evalOutputEmb
  rw [hfs, hemb, init_lookup_agree ctx e hpar]
  rcases hd : scopeLookup delta e with _ | v
  · rcases hI : scopeLookup (initScopeEmb ctx) e with _ | v2
    · simp only [hd, hI]
      by_cases h1 : (toL "request.").isPrefixOf e = true
      · rw [if_pos h1, if_pos h1]
        exact handleRequest_agree ctx e hrem
      · rw [if_neg h1, if_neg h1]
        by_cases h2 : (toL "query.").isPrefixOf e = true
        · rw [if_pos h2, if_pos h2]
        · rw [if_neg h2, if_neg h2]
          by_cases h3 : (toL "form.").isPrefixOf e = true
          · rw [if_pos h3, if_pos h3]
          · rw [if_neg h3, if_neg h3,
              if_neg (fun hh : e.contains '+' = true => by rw [hplus] at hh; cases hh)]
    · simp only [hd, hI]
  · simp only [hd]

/-- C2 (amended): the generated embedded-mode program's expansion equals the
filesystem-backed server's expansion of the same document provided both
registries resolve the include pass to the same content, and the output
expressions of the post-code content use none of the features the generated
program omits: the `+` arithmetic rule, the `request.remoteaddr` table
entry, and the `params` scope seed.  (Without these conditions the outputs
can differ, see the counterexample.) -/
theorem c2_expansion_agree (fuel : Nat)
    (fetch : List Char → Except (List Char) (List Char))
    (emb : List (List Char × List Char)) (ctx : ReqCtx)
    (s c1 c2 : List Char) (scF : Scope)
    (hF : processIncludes fetch fuel s = some c1)
    (hE : processIncludesEmb emb fuel s = some c1)
    (hC : processCodeTop (initScopeFS ctx) c1 = .ok (scF, c2))
    (hcond : ∀ e ∈ outputExprsTop c2,
      e.contains '+' = false ∧ e ≠ toL "request.remoteaddr" ∧ e ≠ toL "params") :
    processTemplateFS fuel fetch ctx s = processTemplateEmb fuel emb ctx s := by
  rcases processCodeExpressions_scope (c1.length + 1) c1 with hall | ⟨delta, out, hok⟩
  · rw [show processCodeTop (initScopeFS ctx) c1
        = processCodeExpressions (c1.length + 1) (initScopeFS ctx) c1 from rfl,
      hall (initScopeFS ctx)] at hC
    cases hC
  · have hFS : processCodeTop (initScopeFS ctx) c1 = .ok (delta ++ initScopeFS ctx, out) :=
      hok (initScopeFS ctx)
    have hEmb : processCodeTop (initScopeEmb ctx) c1 = .ok (delta ++ initScopeEmb ctx, out) :=
      hok (initScopeEmb ctx)
    rw [hFS] at hC
    have hout : out = c2 := by
      have := Except.ok.inj hC
      exact congrArg Prod.snd this
    subst hout
    have hagree : processOutputTags (delta ++ initScopeFS ctx) ctx out
        = processOutputTagsEmb (delta ++ initScopeEmb ctx) ctx out := by
      unfold processOutputTags processOutputTagsEmb
      refine processOutputTagsWith_congr _ _ (out.length + 1) out (fun e he => ?_)
      rcases hcond e he with ⟨hp, hr, hpa⟩
      exact eval_agree delta ctx e hp hr hpa
    simp only [processTemplateFS, processTemplateEmb, hF, hE, hFS, hEmb, hagree]

/-- C1 counterexample: `<%= 2 + +3 %>` has two `+` characters; the claimed
rule (split on the first `+`, operands `2` and `+3`, both integers) predicts
`5`, but the code echoes the expression unchanged. -/
theorem c1_counterexample :
    processTemplateFS 99 fetchNone ctxA (toL "<%= 2 + +3 %>")
        = some (.ok (toL "2 + +3", none))
      ∧ toL "2 + +3" ≠ toL "5" := by
  constructor
  · decide
  · decide

/-- C1 witness: a two-part non-numeric expression concatenates with the `+`
dropped, as in the spec example `ab + cd` → `abcd`. -/
theorem c1_witness : evaluateSimpleExpression (toL "ab + cd") = toL "abcd" := by
  have h := (c1_arith_split (toL "ab + cd") (toL "ab ") (toL " cd")).1
    (by decide) (by decide) (by decide)
  rw [h]
  decide

/-- C2 counterexample: the generated embedded-mode evaluator has no `+`
arithmetic branch, so for the same document and request the filesystem server
renders `5` while the embedded program renders `2 + 3`. -/
theorem c2_counterexample :
    processTemplateFS 99 fetchNone ctxA (toL "<%= 2 + 3 %>")
        = some (.ok (toL "5", none))
      ∧ processTemplateEmb 99 [] ctxA (toL "<%= 2 + 3 %>")
        = some (.ok (toL "2 + 3", none))
      ∧ toL "5" ≠ toL "2 + 3" := by
  refine ⟨?_, ?_, ?_⟩ <;> decide

/-- C2 witness: the specification's `/greet` scenario document expands
byte-identically in both modes. -/
theorem c2_witness :
    processTemplateFS 99 fetchNone ctxA docGreet = processTemplateEmb 99 [] ctxA docGreet :=
  c2_expansion_agree 99 fetchNone [] ctxA docGreet docGreet bodyGreet
    ((toL "who", toL "World") :: initScopeFS ctxA)
    (by decide) (by decide) (by decide) (by decide)

/-- C3 counterexample: the single-quoted include tag of the claim's own
example does not match the include pattern, but it does match the code-block
pattern: it is erased from the output (and assigns to the scope) instead of
being left as literal text. -/
theorem c3_counterexample :
    processTemplateFS 99 fetchNone ctxA badInclude = some (.ok ([], none))
      ∧ processCodeTop [] badInclude
          = .ok ([(toL "@include file", [sqc] ++ toL "x.html" ++ [sqc])], [])
      ∧ badInclude ≠ [] := by
  refine ⟨?_, ?_, ?_⟩ <;> decide

/-- C3 witness: a document with no `<` at all matches none of the patterns
and passes through every pass unchanged, with no scope effect. -/
theorem c3_witness :
    processTemplateFS 9 fetchNone ctxA (toL "hello") = some (.ok (toL "hello", none))
      ∧ processCodeTop [] (toL "hello") = .ok ([], toL "hello") :=
  ⟨(c3_unmatched_identity fetchNone ctxA 9 (toL "hello") (by decide) (by decide)
      (by decide) (by decide)).1,
   (c3_unmatched_identity fetchNone ctxA 9 (toL "hello") (by decide) (by decide)
      (by decide) (by decide)).2 []⟩

/-- C4 counterexample: a matched code block whose right-hand side trims to
the single character `"` drives `v[1:len(v)-1]` out of bounds: the render
panics (no pair is written, nothing renders). -/
theorem c4_counterexample :
    processTemplateFS 99 fetchNone ctxA (toL "<% x = \" %>") = some (.error ()) := by
  decide

/-- C4 witness: a well-formed assignment splits on the first `=`, trims,
strips one layer of quotes and stores the pair. -/
theorem c4_witness : codeAssign [] (toL "x = \"y\"") = .ok [(toL "x", toL "y")] := by
  have h := (c4_code_assign [] (toL "x = \"y\"") (toL "x ") (toL " \"y\"")).1
    (by decide) (by decide)
  rw [h]
  decide

/-- C5 counterexample: with two assignments to the same name, the claim
(universally quantified over every assignment) requires both `a` and `b` to
appear; last write wins, so `a` never appears in the output. -/
theorem c5_counterexample :
    processTemplateFS 99 fetchNone ctxA (toL "<% x = \"a\" %><% x = \"b\" %><%= x %>")
        = some (.ok (toL "b", none))
      ∧ 'a' ∉ toL "b" := by
  constructor
  · decide
  · decide

/-- C5 witness: with an output tag placed before the only assignment, the
assigned value still reaches the output (document-wide visibility). -/
theorem c5_witness :
    processTemplateFS 99 fetchNone ctxA
        (toL "A " ++ (outTag (toL "who") ++ (toL " B "
          ++ (asgTag (toL "who") (toL "World") ++ toL " C"))))
      = some (.ok (toL "A " ++ (toL "World" ++ (toL " B " ++ toL " C")), none)) :=
  c5_document_wide_visibility (toL "A ") (toL " B ") (toL " C") (toL "who") (toL "World")
    fetchNone ctxA 99 (by decide) (by decide) (by decide) (by decide) (by decide)
    (by decide) (by decide)

/-- C6 witness: the registry mapping `self.html` to a document that includes
`self.html` diverges at every fuel, here at fuel 7. -/
theorem c6_witness : processIncludes fetchSelf 7 selfInc = none := by
  refine c6_cycle_diverges fetchSelf (fun s2 => s2 = selfInc) ?_ selfInc rfl 7
  intro s2 hs2
  subst hs2
  refine ⟨0, toL "self.html", [], ?_, ?_, Or.inl ⟨selfInc, ?_, rfl⟩⟩
  · intro i hi
    omega
  · decide
  · decide

/-- C7 witness: a missing include substitutes the inline marker and the rest
of the document (`!`) still renders. -/
theorem c7_witness :
    processIncludes fetchNone 51 (toL "<%@include file=\"missing.html\" %>!")
      = some (toL "<!-- Include error: no such file -->!") := by
  rw [c7_include_error_marker fetchNone 50 (toL "<%@include file=\"missing.html\" %>!")
    (toL "missing.html") (toL "!") (toL "no such file") (by decide) (by decide)]
  decide

/-- C8 witness: a scope binding named `query.x` shadows the `query.`
namespace: the stored value is rendered, not the query parameter. -/
theorem c8_witness :
    evalOutput [(toL "query.x", toL "7")] ctxA (toL "query.x") = toL "7" :=
  (c8_resolution_order [(toL "query.x", toL "7")] ctxA (toL "query.x") (toL "7")).1
    (by decide)

/-- C9 witness: a successful render carries a `nil` error value. -/
theorem c9_witness :
    processTemplateFS 9 fetchNone ctxA (toL "hi") = some (.ok (toL "hi", none))
      ∧ (none : Option (List Char)) = none :=
  ⟨by decide, c9_no_template_error 9 fetchNone ctxA (toL "hi") (toL "hi") none (by decide)⟩

/-- C10 counterexample: `<% %abc%>` is a code tag whose body contains `%`
before the closing delimiter (the regexp's `[^=]` may itself match `%`), yet
the scanner matches it and erases it rather than passing it through. -/
theorem c10_counterexample :
    processTemplateFS 99 fetchNone ctxA (toL "<% %abc%>tail")
        = some (.ok (toL "tail", none))
      ∧ toL "<% %abc%>tail" ≠ toL "tail" := by
  constructor
  · decide
  · decide

/-- C10: amended limits on `%` in tag bodies: a matched code tag's captured
body has no `%` after its first character, a matched output tag's captured
expression has no `%` at all, and the claim's two examples
(`<% x = "50%" %>` and `<%= a % b %>`) are never matched and pass through
expansion unchanged. -/
theorem c10_pct_limits :
    (∀ s g rest : List Char, matchCodeAt s = some (g, rest) → ∀ d ∈ g.drop 1, d ≠ '%')
    ∧ (∀ s g rest : List Char, matchOutputAt s = some (g, rest) → ∀ d ∈ g, d ≠ '%')
    ∧ processTemplateFS 99 fetchNone ctxA (toL "<% x = \"50%\" %>")
        = some (.ok (toL "<% x = \"50%\" %>", none))
    ∧ processTemplateFS 99 fetchNone ctxA (toL "<%= a % b %>")
        = some (.ok (toL "<%= a % b %>", none)) :=
  ⟨fun _ _ _ h => matchCodeAt_group_no_pct h,
   fun _ _ _ h => matchOutputAt_group_no_pct h,
   by decide, by decide⟩

/-- C10 witness: a concrete matched code tag, with the `%`-freeness of its
body tail obtained from the amended theorem. -/
theorem c10_witness :
    matchCodeAt (toL "<% hi %>") = some (toL "hi ", [])
      ∧ ∀ d ∈ (toL "hi ").drop 1, d ≠ '%' :=
  ⟨by decide, c10_pct_limits.1 (toL "<% hi %>") (toL "hi ") [] (by decide)⟩
